import Mathlib

/-!
# sinker: the `pull` command

A shallow embedding of `internal/commands/pull.go` and `main.go`, and the
properties of the reconciliation run that the design document states.

The registry client (`internal/docker`), the manifest (`internal/manifest`),
the configuration singleton (viper) and the logger are collaborators whose
code is outside the two embedded files: they enter as parameters
(`Client`, `Env`).  Every call the run makes on a collaborator is recorded,
with its arguments and its answer, in a trace of `Event`s.
-/

namespace Sinker

/-! ## Go maps -/

/-- A Go `map[string]string`: an association list in which every key occurs
at most once (all maps below are built from `GoMap.empty` with `GoMap.set`). -/
abbrev GoMap := List (String × String)

/-- The value of `make(map[string]string)`. -/
def GoMap.empty : GoMap := []

/-- The statement `m[k] = v`: overwrite the value of an existing key, add the
entry when the key is new. -/
def GoMap.set : GoMap → String → String → GoMap
  | [], k, v => [(k, v)]
  | (k0, v0) :: rest, k, v =>
    if k0 = k then (k0, v) :: rest else (k0, v0) :: GoMap.set rest k v

/-- The expression `m[k]` with the presence flag. -/
def GoMap.get : GoMap → String → Option String
  | [], _ => none
  | (k0, v0) :: rest, k => if k0 = k then some v0 else GoMap.get rest k

/-- The keys of a map, in storage order. -/
def GoMap.keys (m : GoMap) : List String := m.map Prod.fst

/-- An iteration order for `range` over a map: for a map of `n` entries, the
sequence in which the `n` stored entries are visited.  Go leaves the order
unspecified; it visits every entry exactly once. -/
structure Order where
  idx : Nat → List Nat
  perm : ∀ n, (idx n).Perm (List.range n)

/-- The order that visits the entries as stored. -/
def Order.stored : Order := ⟨List.range, fun _ => List.Perm.refl _⟩

/-- The order that visits the entries backwards. -/
def Order.backwards : Order :=
  ⟨fun n => (List.range n).reverse, fun n => List.reverse_perm (List.range n)⟩

/-- The entries of `m` in the sequence `for k, v := range m` visits them under
the order `o`. -/
def GoMap.range (o : Order) (m : GoMap) : List (String × String) :=
  (o.idx m.length).filterMap (fun i => m[i]?)

/-! ## Collaborators -/

/-- The calls of `*docker.Client` used by the command, over the state `σ` of
everything outside the process (daemon, registries, network, clock).  Each
call answers and moves that state.  The context argument carries the run
deadline; its expiry shows as an error answer. -/
structure Client (σ : Type) where
  /-- Method `ImageExistsOnHost(ctx, image) (bool, error)`. -/
  ImageExistsOnHost : σ → String → (Bool × Option String) × σ
  /-- Method `ImageExistsAtRemote(ctx, image) (_, error)`; the first result is dropped by
  the caller. -/
  ImageExistsAtRemote : σ → String → Option String × σ
  /-- Method `PullAndWait(ctx, image, auth) error`. -/
  PullAndWait : σ → String → String → Option String × σ

/-- The side of a manifest entry that is pushed to. -/
structure Target where
  /-- Result of the method `EncodedAuth()`. -/
  EncodedAuth : Except String String

/-- A manifest entry, given by the results of the four methods the command
calls on it. -/
structure Source where
  /-- Result of the method `Image()`. -/
  Image : String
  /-- Result of the method `EncodedAuth()`. -/
  EncodedAuth : Except String String
  /-- Result of the method `TargetImage()`. -/
  TargetImage : String
  Target : Target

/-- The manifest type of `internal/manifest`. -/
structure Manifest where
  Sources : List Source

/-- What a run observes and does outside the process. -/
inductive Event where
  /-- A call of manifest.Get on a path. -/
  | manifestGet (path : String)
  /-- A call of ImageExistsOnHost on an image, with its two results. -/
  | existsOnHost (image : String) (found : Bool) (err : Option String)
  /-- A call of ImageExistsAtRemote on an image, with its error result. -/
  | existsAtRemote (image : String) (err : Option String)
  /-- A call of PullAndWait on an image and a credential, with its result. -/
  | pullAndWait (image : String) (auth : String) (err : Option String)
  /-- A line written with log.Infof. -/
  | logInfo (msg : String)
  /-- A line written with log.Errorf. -/
  | logError (msg : String)
  deriving DecidableEq, Repr

/-- Everything `runPullCommand` reads from outside its arguments. -/
structure Env (σ : Type) where
  /-- Value of `viper.GetString("manifest")`. -/
  manifestPath : String
  /-- Value of `viper.GetStringSlice("images")`. -/
  imagesFlag : List String
  /-- Result of `docker.New(log.Infof)`. -/
  dockerNew : Except String (Client σ)
  /-- Function `manifest.Get`. -/
  manifestGet : String → Except String Manifest
  /-- Function `docker.RegistryPath(image).Host()`. -/
  registryHost : String → String
  /-- Function `docker.GetEncodedAuthForHost`. -/
  getEncodedAuthForHost : String → Except String String
  /-- The Unicode table behind `strings.EqualFold`: whether two distinct runes,
  the larger one outside ASCII, are in one simple-folding orbit. -/
  unicodeFold : Char → Char → Bool
  /-- The iteration order of the loop over `images`. -/
  order1 : Order
  /-- The iteration order of the first loop over `imagesToPull`. -/
  order2 : Order
  /-- The iteration order of the second loop over `imagesToPull`. -/
  order3 : Order

/-- The result of a run: the returned error, the outside state it leaves, and
the events in the order they happened. -/
structure Outcome (σ : Type) where
  err : Option String
  state : σ
  trace : List Event

/-! ## `strings.EqualFold` -/

/-- One step of `strings.EqualFold`: two runes are equal under simple case
folding. -/
def runeEqualFold (unicodeFold : Char → Char → Bool) (a b : Char) : Bool :=
  if a = b then true
  else
    let sr := if b.toNat < a.toNat then b else a
    let tr := if b.toNat < a.toNat then a else b
    if tr.toNat < 128 then
      decide (65 ≤ sr.toNat ∧ sr.toNat ≤ 90 ∧ tr.toNat = sr.toNat + 32)
    else unicodeFold sr tr

/-- The rune loop of `strings.EqualFold`. -/
def equalFoldRunes (unicodeFold : Char → Char → Bool) : List Char → List Char → Bool
  | [], [] => true
  | a :: s, b :: t => runeEqualFold unicodeFold a b && equalFoldRunes unicodeFold s t
  | _, _ => false

/-- Go `strings.EqualFold(s, t)`. -/
def EqualFold (unicodeFold : Char → Char → Bool) (s t : String) : Bool :=
  equalFoldRunes unicodeFold s.data t.data

/-! ## `pull.go` -/

/-- The loop of `getImagesFromCommandLine` over the remaining images, `imgs`
being the map built so far. -/
def getImagesFromCommandLine.loop (registryHost : String → String)
    (getEncodedAuthForHost : String → Except String String) :
    List String → GoMap → Except String GoMap
  | [], imgs => .ok imgs
  | image :: rest, imgs =>
    match getEncodedAuthForHost (registryHost image) with
    | .error e => .error ("get auth: " ++ e)
    | .ok auth =>
      getImagesFromCommandLine.loop registryHost getEncodedAuthForHost rest (imgs.set image auth)

/-- Go `getImagesFromCommandLine(images)`. -/
def getImagesFromCommandLine (env : Env σ) (images : List String) : Except String GoMap :=
  getImagesFromCommandLine.loop env.registryHost env.getEncodedAuthForHost images GoMap.empty

/-- The image and the credential result that one iteration of the loop of
`getImagesFromManifest` takes from a manifest entry. -/
def getImagesFromManifest.pick (unicodeFold : Char → Char → Bool) (origin : String)
    (source : Source) : String × Except String String :=
  if EqualFold unicodeFold origin "target" then
    (source.TargetImage, source.Target.EncodedAuth)
  else
    (source.Image, source.EncodedAuth)

/-- The loop of `getImagesFromManifest` over the remaining manifest entries,
`images` being the map built so far. -/
def getImagesFromManifest.loop (unicodeFold : Char → Char → Bool) (origin : String) :
    List Source → GoMap → Except String GoMap
  | [], images => .ok images
  | source :: rest, images =>
    match getImagesFromManifest.pick unicodeFold origin source with
    | (_, .error e) => .error ("get " ++ origin ++ " auth: " ++ e)
    | (image, .ok auth) =>
      getImagesFromManifest.loop unicodeFold origin rest (images.set image auth)

/-- Go `getImagesFromManifest(path, origin)`, with the read of the manifest as
an event. -/
def getImagesFromManifest (env : Env σ) (path origin : String) :
    Except String GoMap × List Event :=
  match env.manifestGet path with
  | .error e => (.error ("get manifest: " ++ e), [Event.manifestGet path])
  | .ok imageManifest =>
    (getImagesFromManifest.loop env.unicodeFold origin imageManifest.Sources GoMap.empty,
      [Event.manifestGet path])

/-- Lines 60 to 65 of `runPullCommand`: the Desired State and the events of
building it. -/
def runPullCommand.images (env : Env σ) (origin : String) : Except String GoMap × List Event :=
  if env.imagesFlag.length > 0 then
    (getImagesFromCommandLine env env.imagesFlag, [])
  else
    getImagesFromManifest env env.manifestPath origin

/-- The first loop of `runPullCommand` (lines 73 to 82) over the remaining
entries of `images`: returns the error if a check failed, `imagesToPull`, the
outside state and the events. -/
def runPullCommand.filterLoop (client : Client σ) :
    List (String × String) → σ → GoMap → Option String × GoMap × σ × List Event
  | [], s, imagesToPull => (none, imagesToPull, s, [])
  | (image, auth) :: rest, s, imagesToPull =>
    match client.ImageExistsOnHost s image with
    | ((found, some e), s1) =>
      (some ("image host existence: " ++ e), imagesToPull, s1,
        [Event.existsOnHost image found (some e)])
    | ((found, none), s1) =>
      let r := runPullCommand.filterLoop client rest s1
        (if !found then imagesToPull.set image auth else imagesToPull)
      (r.1, r.2.1, r.2.2.1, Event.existsOnHost image found none :: r.2.2.2)

/-- The second loop of `runPullCommand` (lines 87 to 91) over the remaining
entries of `imagesToPull`. -/
def runPullCommand.validateLoop (client : Client σ) :
    List (String × String) → σ → Option String × σ × List Event
  | [], s => (none, s, [])
  | (image, _) :: rest, s =>
    match client.ImageExistsAtRemote s image with
    | (some e, s1) =>
      (some ("validating remote image: " ++ e), s1, [Event.existsAtRemote image (some e)])
    | (none, s1) =>
      let r := runPullCommand.validateLoop client rest s1
      (r.1, r.2.1, Event.existsAtRemote image none :: r.2.2)

/-- The third loop of `runPullCommand` (lines 93 to 99) over the remaining
entries of `imagesToPull`. -/
def runPullCommand.pullLoop (client : Client σ) :
    List (String × String) → σ → σ × List Event
  | [], s => (s, [])
  | (image, auth) :: rest, s =>
    match client.PullAndWait s image auth with
    | (some e, s1) =>
      let r := runPullCommand.pullLoop client rest s1
      (r.1, Event.logInfo ("Pulling " ++ image) :: Event.pullAndWait image auth (some e)
        :: Event.logError ("pull image and wait: " ++ e) :: r.2)
    | (none, s1) =>
      let r := runPullCommand.pullLoop client rest s1
      (r.1, Event.logInfo ("Pulling " ++ image) :: Event.pullAndWait image auth none :: r.2)

/-- Lines 70 to 103 of `runPullCommand`: the run once the client and the
Desired State `images` exist. -/
def runPullCommand.reconcile (env : Env σ) (client : Client σ) (origin : String)
    (images : GoMap) (s : σ) : Outcome σ :=
  let log0 := Event.logInfo
    ("Finding images that need to be pulled from " ++ origin ++ " registry ...")
  match runPullCommand.filterLoop client (images.range env.order1) s GoMap.empty with
  | (some e, _, s1, tr1) => ⟨some e, s1, log0 :: tr1⟩
  | (none, imagesToPull, s1, tr1) =>
    match runPullCommand.validateLoop client (imagesToPull.range env.order2) s1 with
    | (some e, s2, tr2) => ⟨some e, s2, log0 :: (tr1 ++ tr2)⟩
    | (none, s2, tr2) =>
      let r := runPullCommand.pullLoop client (imagesToPull.range env.order3) s2
      ⟨none, r.1, log0 :: (tr1 ++ tr2 ++ r.2 ++ [Event.logInfo "All images have been pulled!"])⟩

/-- Go `runPullCommand(origin)`, started in the outside state `s`. -/
def runPullCommand (env : Env σ) (origin : String) (s : σ) : Outcome σ :=
  match env.dockerNew with
  | .error e => ⟨some ("new client: " ++ e), s, []⟩
  | .ok client =>
    match runPullCommand.images env origin with
    | (.error e, tr0) => ⟨some ("get images: " ++ e), s, tr0⟩
    | (.ok images, tr0) =>
      let r := runPullCommand.reconcile env client origin images s
      ⟨r.err, r.state, tr0 ++ r.trace⟩

/-- The origin chosen by the `RunE` closure of `newPullCommand` from the
command arguments. -/
def newPullCommand.origin : List String → String
  | [] => "source"
  | arg0 :: _ => arg0

/-- The `RunE` closure of `newPullCommand`. -/
def newPullCommand.RunE (env : Env σ) (args : List String) (s : σ) : Outcome σ :=
  let r := runPullCommand env (newPullCommand.origin args) s
  match r.err with
  | some e => ⟨some ("pull: " ++ e), r.state, r.trace⟩
  | none => r

/-- Go `main` of `main.go`, as the exit status for the error that `Execute`
returned. -/
def main (executeErr : Option String) : Nat :=
  match executeErr with
  | some _ => 1
  | none => 0

/-! ## Observations on traces -/

/-- The image an event passes to the registry client, if it is a client call. -/
def Event.clientImage : Event → Option String
  | .existsOnHost image _ _ => some image
  | .existsAtRemote image _ => some image
  | .pullAndWait image _ _ => some image
  | _ => none

/-- The arguments of a transfer call. -/
def Event.pullArgs : Event → Option (String × String)
  | .pullAndWait image auth _ => some (image, auth)
  | _ => none

/-- The argument of a remote-validation call. -/
def Event.probeArg : Event → Option String
  | .existsAtRemote image _ => some image
  | _ => none

/-- The argument of a local existence check. -/
def Event.hostArg : Event → Option String
  | .existsOnHost image _ _ => some image
  | _ => none

/-- The event is a local existence check or a remote probe that answered with
an error. -/
def Event.fatal : Event → Bool
  | .existsOnHost _ _ (some _) => true
  | .existsAtRemote _ (some _) => true
  | _ => false

/-- The first line logged by `runPullCommand`. -/
def findingLine (origin : String) : Event :=
  Event.logInfo ("Finding images that need to be pulled from " ++ origin ++ " registry ...")

/-- The last line logged by `runPullCommand`. -/
def pulledLine : Event := Event.logInfo "All images have been pulled!"

/-- The event is a transfer that answered with an error. -/
def Event.pullFailed : Event → Bool
  | .pullAndWait _ _ (some _) => true
  | _ => false

/-- The calls of ImageExistsAtRemote in a trace, each with everything passed to
it and its answer. -/
def probeCalls (trace : List Event) : List Event :=
  trace.filter (fun ev => ev.probeArg.isSome)

/-- The Work Set as a run shows it: the entries of the Desired State whose
local existence check answered "absent" without error. -/
def workSet (images : GoMap) (trace : List Event) : GoMap :=
  images.filter (fun p => decide (Event.existsOnHost p.1 false none ∈ trace))

/-! ## Notions of the design document -/

/-- Successive `m[k] = v` for a list of keys with credential results, stopping
with `none` at the first result that is an error: the common form of the two
builder loops. -/
def insertAll : List (String × Except String String) → GoMap → Option GoMap
  | [], m => some m
  | (k, .ok v) :: rest, m => insertAll rest (m.set k v)
  | (_, .error _) :: _, _ => none

/-- The pairs (image, credential result) that `getImagesFromCommandLine` goes
through for a list of images. -/
def commandLineEntries (env : Env σ) (images : List String) :
    List (String × Except String String) :=
  images.map (fun image => (image, env.getEncodedAuthForHost (env.registryHost image)))

/-- The value paired with the last occurrence of the key `k` in a list of
pairs. -/
def lastValue {β : Type} (k : String) : List (String × β) → Option β
  | [] => none
  | (k0, v0) :: rest =>
    match lastValue k rest with
    | some v => some v
    | none => if k0 = k then some v0 else none

/-- The value paired with the first occurrence of the key `k` in a list of
pairs. -/
def firstValue {β : Type} (k : String) : List (String × β) → Option β
  | [] => none
  | (k0, v0) :: rest => if k0 = k then some v0 else firstValue k rest

/-- The condition "no change from outside" of the idempotence property, for a
client and a notion `present` of local presence: an existence check that
answers without error tells whether the image is present; no existence check
and no probe changes what is present; a transfer removes nothing, and a
transfer that succeeds makes its image present. -/
def Quiet {σ : Type} (c : Client σ) (present : σ → String → Bool) : Prop :=
  (∀ s img, (c.ImageExistsOnHost s img).1.2 = none →
    (c.ImageExistsOnHost s img).1.1 = present s img) ∧
  (∀ s img x, present (c.ImageExistsOnHost s img).2 x = present s x) ∧
  (∀ s img x, present (c.ImageExistsAtRemote s img).2 x = present s x) ∧
  (∀ s img auth x, present s x = true → present (c.PullAndWait s img auth).2 x = true) ∧
  (∀ s img auth, (c.PullAndWait s img auth).1 = none →
    present (c.PullAndWait s img auth).2 img = true)

/-! ## Examples -/

/-- An example registry client.  The outside state is the list of the images
present locally; the probe refuses the image "bad"; the transfer of "flaky"
fails and every other transfer makes its image present. -/
def exampleClient : Client (List String) where
  ImageExistsOnHost := fun s image => ((decide (image ∈ s), none), s)
  ImageExistsAtRemote := fun s image => (if image = "bad" then some "unauthorized" else none, s)
  PullAndWait := fun s image _ =>
    if image = "flaky" then (some "timeout", s) else (none, image :: s)

/-- Local presence under the example client. -/
def examplePresent (s : List String) (image : String) : Bool := decide (image ∈ s)

/-- An example manifest of three entries, two of them for the same source
image "a" with different credentials. -/
def exampleManifest : Manifest :=
  ⟨[⟨"a", .ok "first", "ta", ⟨.ok "t1"⟩⟩, ⟨"a", .ok "second", "tb", ⟨.ok "t2"⟩⟩,
    ⟨"c", .ok "third", "tc", ⟨.ok "t3"⟩⟩]⟩

/-- The example manifest with another credential for the source image "a". -/
def exampleManifestRotated : Manifest :=
  ⟨[⟨"a", .ok "first", "ta", ⟨.ok "t1"⟩⟩, ⟨"a", .ok "rotated", "tb", ⟨.ok "t2"⟩⟩,
    ⟨"c", .ok "third", "tc", ⟨.ok "t3"⟩⟩]⟩

/-- An example environment: no explicit image list, the example manifest,
credentials that resolve for every host but "nohost". -/
def exampleEnv : Env (List String) where
  manifestPath := "m.yaml"
  imagesFlag := []
  dockerNew := .ok exampleClient
  manifestGet := fun _ => .ok exampleManifest
  registryHost := fun image => image
  getEncodedAuthForHost := fun host =>
    if host = "nohost" then .error "no credentials" else .ok ("auth-" ++ host)
  unicodeFold := fun _ _ => false
  order1 := Order.stored
  order2 := Order.backwards
  order3 := Order.stored

/-- The example environment over the manifest with the other credential. -/
def exampleRotatedEnv : Env (List String) :=
  { exampleEnv with manifestGet := fun _ => .ok exampleManifestRotated }

/-- The example environment with an explicit image list of four images. -/
def exampleListEnv : Env (List String) :=
  { exampleEnv with imagesFlag := ["x", "flaky", "c", "y"] }

/-- The example environment with an explicit image list whose second image
is refused by the probe. -/
def exampleBadEnv : Env (List String) :=
  { exampleEnv with imagesFlag := ["x", "bad"] }

/-- The example environment with an explicit image list whose second image
has a host without credentials. -/
def exampleNoAuthEnv : Env (List String) :=
  { exampleEnv with imagesFlag := ["x", "nohost"] }

/-- The example environment with an explicit list of one image, whose
transfer fails. -/
def exampleFlakyEnv : Env (List String) :=
  { exampleEnv with imagesFlag := ["flaky"] }

/-! ## Facts about maps and iteration orders -/

/-- Setting a new key appends the entry. -/
theorem GoMap.set_of_not_mem (m : GoMap) (k v : String) (h : k ∉ m.keys) :
    m.set k v = m ++ [(k, v)] := by
  induction m with
  | nil => rfl
  | cons p rest ih =>
    obtain ⟨k0, v0⟩ := p
    simp only [GoMap.keys, List.map_cons, List.mem_cons, not_or] at h
    have hne : ¬ k0 = k := fun e => h.1 e.symm
    simp only [GoMap.set, hne, if_false, List.cons_append]
    rw [ih h.2]

/-- Setting an existing key leaves the keys as they are. -/
theorem GoMap.keys_set_of_mem (m : GoMap) (k v : String) (h : k ∈ m.keys) :
    (m.set k v).keys = m.keys := by
  induction m with
  | nil => simp [GoMap.keys] at h
  | cons p rest ih =>
    obtain ⟨k0, v0⟩ := p
    by_cases hk : k0 = k
    · simp [GoMap.set, hk, GoMap.keys]
    · have h2 : k ∈ GoMap.keys rest := by
        simp only [GoMap.keys, List.map_cons, List.mem_cons] at h
        rcases h with h | h
        · exact absurd h.symm hk
        · exact h
      have := ih h2
      simp only [GoMap.keys] at this
      simp [GoMap.set, hk, GoMap.keys, this]

/-- Setting a key keeps the keys distinct. -/
theorem GoMap.set_keys_nodup (m : GoMap) (k v : String) (h : m.keys.Nodup) :
    (m.set k v).keys.Nodup := by
  by_cases hk : k ∈ m.keys
  · rw [GoMap.keys_set_of_mem m k v hk]; exact h
  · rw [GoMap.set_of_not_mem m k v hk]
    simp only [GoMap.keys, List.map_append, List.map_cons, List.map_nil]
    rw [List.nodup_append]
    refine ⟨h, List.nodup_singleton k, ?_⟩
    intro a ha hb
    simp only [List.mem_singleton] at hb
    subst hb
    exact hk ha

/-- Reading after `m[k] = v`. -/
theorem GoMap.get_set (m : GoMap) (k v k' : String) :
    (m.set k v).get k' = if k = k' then some v else m.get k' := by
  induction m with
  | nil => simp [GoMap.set, GoMap.get]
  | cons p rest ih =>
    obtain ⟨k0, v0⟩ := p
    by_cases hk : k0 = k
    · subst hk
      by_cases hk' : k0 = k' <;> simp [GoMap.set, GoMap.get, hk']
    · by_cases hk' : k0 = k'
      · subst hk'
        simp [GoMap.set, GoMap.get, hk, Ne.symm hk]
      · simp [GoMap.set, GoMap.get, hk, hk', ih]

/-- Visiting the positions of a list in storage order gives the list. -/
theorem range_filterMap_getElem (m : List α) :
    (List.range m.length).filterMap (fun i => m[i]?) = m := by
  induction m with
  | nil => rfl
  | cons a rest ih =>
    rw [List.length_cons, List.range_succ_eq_map, List.filterMap_cons]
    simp only [List.getElem?_cons_zero, List.filterMap_map]
    have hf : ((fun i => (a :: rest)[i]?) ∘ Nat.succ) = (fun i => rest[i]?) := by
      funext i
      simp
    rw [hf, ih]

/-- A `range` visits every entry of the map exactly once. -/
theorem GoMap.range_perm (o : Order) (m : GoMap) : (m.range o).Perm m := by
  have h := List.Perm.filterMap (fun i => m[i]?) (o.perm m.length)
  rw [range_filterMap_getElem] at h
  exact h

/-- The keys met by a `range` over a map with distinct keys are distinct. -/
theorem GoMap.range_keys_nodup (o : Order) (m : GoMap) (h : m.keys.Nodup) :
    ((m.range o).map Prod.fst).Nodup :=
  ((GoMap.range_perm o m).map Prod.fst).nodup_iff.mpr h

/-! ## The three loops -/

/-- One iteration of the first loop whose check answers with an error. -/
theorem filterLoop_cons_err (c : Client σ) (image auth : String) (rest : List (String × String))
    (s s1 : σ) (acc : GoMap) (found : Bool) (e : String)
    (h : c.ImageExistsOnHost s image = ((found, some e), s1)) :
    runPullCommand.filterLoop c ((image, auth) :: rest) s acc =
      (some ("image host existence: " ++ e), acc, s1,
        [Event.existsOnHost image found (some e)]) := by
  simp only [runPullCommand.filterLoop, h]

/-- One iteration of the first loop whose check answers without error. -/
theorem filterLoop_cons_ok (c : Client σ) (image auth : String) (rest : List (String × String))
    (s s1 : σ) (acc : GoMap) (found : Bool)
    (h : c.ImageExistsOnHost s image = ((found, none), s1)) :
    runPullCommand.filterLoop c ((image, auth) :: rest) s acc =
      ((runPullCommand.filterLoop c rest s1
          (if !found then acc.set image auth else acc)).1,
       (runPullCommand.filterLoop c rest s1
          (if !found then acc.set image auth else acc)).2.1,
       (runPullCommand.filterLoop c rest s1
          (if !found then acc.set image auth else acc)).2.2.1,
       Event.existsOnHost image found none ::
        (runPullCommand.filterLoop c rest s1
          (if !found then acc.set image auth else acc)).2.2.2) := by
  simp only [runPullCommand.filterLoop, h]

/-- Every event of the first loop is an existence check on an image of the
list. -/
theorem filterLoop_trace (c : Client σ) (L : List (String × String)) :
    ∀ (s : σ) (acc : GoMap), ∀ ev ∈ (runPullCommand.filterLoop c L s acc).2.2.2,
      ∃ img f err, ev = Event.existsOnHost img f err ∧ img ∈ L.map Prod.fst := by
  induction L with
  | nil => intro s acc ev h; simp [runPullCommand.filterLoop] at h
  | cons p rest ih =>
    obtain ⟨image, auth⟩ := p
    intro s acc ev hev
    rcases h : c.ImageExistsOnHost s image with ⟨⟨found, _ | e⟩, s1⟩
    · rw [filterLoop_cons_ok c image auth rest s s1 acc found h] at hev
      simp only [List.mem_cons] at hev
      rcases hev with hev | hev
      · exact ⟨image, found, none, hev, by simp⟩
      · obtain ⟨img, f, err, h1, h2⟩ := ih _ _ ev hev
        exact ⟨img, f, err, h1, by simp [h2]⟩
    · rw [filterLoop_cons_err c image auth rest s s1 acc found e h] at hev
      simp only [List.mem_singleton] at hev
      exact ⟨image, found, some e, hev, by simp⟩

/-- The first loop returns no error exactly when none of its checks answered
with an error. -/
theorem filterLoop_err (c : Client σ) (L : List (String × String)) :
    ∀ (s : σ) (acc : GoMap),
      ((runPullCommand.filterLoop c L s acc).1 = none ∧
        ∀ ev ∈ (runPullCommand.filterLoop c L s acc).2.2.2, ev.fatal = false) ∨
      ((runPullCommand.filterLoop c L s acc).1 ≠ none ∧
        ∃ ev ∈ (runPullCommand.filterLoop c L s acc).2.2.2, ev.fatal = true) := by
  induction L with
  | nil => intro s acc; left; simp [runPullCommand.filterLoop]
  | cons p rest ih =>
    obtain ⟨image, auth⟩ := p
    intro s acc
    rcases h : c.ImageExistsOnHost s image with ⟨⟨found, _ | e⟩, s1⟩
    · rw [filterLoop_cons_ok c image auth rest s s1 acc found h]
      rcases ih s1 (if !found then acc.set image auth else acc) with ⟨h1, h2⟩ | ⟨h1, ev, h2, h3⟩
      · left
        refine ⟨h1, ?_⟩
        intro ev hev
        simp only [List.mem_cons] at hev
        rcases hev with hev | hev
        · subst hev; rfl
        · exact h2 ev hev
      · right
        exact ⟨h1, ev, List.mem_cons_of_mem _ h2, h3⟩
    · rw [filterLoop_cons_err c image auth rest s s1 acc found e h]
      right
      exact ⟨by simp, _, List.mem_singleton.mpr rfl, rfl⟩

/-- An image is checked at most once by the first loop over distinct keys. -/
theorem filterLoop_unique (c : Client σ) (L : List (String × String)) :
    ∀ (s : σ) (acc : GoMap), (L.map Prod.fst).Nodup →
      ∀ img f1 e1 f2 e2,
        Event.existsOnHost img f1 e1 ∈ (runPullCommand.filterLoop c L s acc).2.2.2 →
        Event.existsOnHost img f2 e2 ∈ (runPullCommand.filterLoop c L s acc).2.2.2 →
        f1 = f2 ∧ e1 = e2 := by
  induction L with
  | nil => intro s acc _ img f1 e1 f2 e2 h; simp [runPullCommand.filterLoop] at h
  | cons p rest ih =>
    obtain ⟨image, auth⟩ := p
    intro s acc hnd img f1 e1 f2 e2 h1 h2
    simp only [List.map_cons, List.nodup_cons] at hnd
    rcases h : c.ImageExistsOnHost s image with ⟨⟨found, _ | e⟩, s1⟩
    · rw [filterLoop_cons_ok c image auth rest s s1 acc found h] at h1 h2
      simp only [List.mem_cons] at h1 h2
      have key : ∀ f e, Event.existsOnHost img f e ∈
          (runPullCommand.filterLoop c rest s1
            (if !found then acc.set image auth else acc)).2.2.2 → img ≠ image := by
        intro f e hm heq
        obtain ⟨img', f', err', h3, h4⟩ := filterLoop_trace c rest _ _ _ hm
        injection h3 with h3a
        subst heq
        rw [← h3a] at h4
        exact hnd.1 h4
      rcases h1 with h1 | h1 <;> rcases h2 with h2 | h2
      · injection h1 with a1 b1 c1
        injection h2 with a2 b2 c2
        exact ⟨b1.trans b2.symm, c1.trans c2.symm⟩
      · injection h1 with a1 b1 c1
        exact absurd a1 (key _ _ h2)
      · injection h2 with a2 b2 c2
        exact absurd a2 (key _ _ h1)
      · exact ih _ _ hnd.2 img f1 e1 f2 e2 h1 h2
    · rw [filterLoop_cons_err c image auth rest s s1 acc found e h] at h1 h2
      simp only [List.mem_singleton] at h1 h2
      injection h1 with a1 b1 c1
      injection h2 with a2 b2 c2
      exact ⟨b1.trans b2.symm, c1.trans c2.symm⟩

/-- When the first loop returns no error over distinct new keys, the map it
returns is the given map followed by the entries whose check answered
"absent", in the order visited. -/
theorem filterLoop_toPull (c : Client σ) (L : List (String × String)) :
    ∀ (s : σ) (acc : GoMap), (L.map Prod.fst).Nodup →
      (∀ k ∈ L.map Prod.fst, k ∉ acc.keys) →
      (runPullCommand.filterLoop c L s acc).1 = none →
      (runPullCommand.filterLoop c L s acc).2.1 =
        acc ++ L.filter (fun p => decide (Event.existsOnHost p.1 false none ∈
          (runPullCommand.filterLoop c L s acc).2.2.2)) := by
  induction L with
  | nil => intro s acc _ _ _; simp [runPullCommand.filterLoop]
  | cons p rest ih =>
    obtain ⟨image, auth⟩ := p
    intro s acc hnd hdisj hok
    simp only [List.map_cons, List.nodup_cons] at hnd
    rcases h : c.ImageExistsOnHost s image with ⟨⟨found, _ | e⟩, s1⟩
    · rw [filterLoop_cons_ok c image auth rest s s1 acc found h] at hok ⊢
      simp only at hok ⊢
      have himg : image ∉ acc.keys := hdisj image (by simp)
      have hrest : ∀ f e, Event.existsOnHost image f e ∉
          (runPullCommand.filterLoop c rest s1
            (if !found then acc.set image auth else acc)).2.2.2 := by
        intro f e hm
        obtain ⟨img', f', err', h3, h4⟩ := filterLoop_trace c rest _ _ _ hm
        injection h3 with h3a
        rw [← h3a] at h4
        exact hnd.1 h4
      have hdisj' : ∀ k ∈ rest.map Prod.fst,
          k ∉ GoMap.keys (if !found then acc.set image auth else acc) := by
        intro k hk
        have h1 : k ∉ acc.keys := hdisj k (by simp [hk])
        have h2 : k ≠ image := fun e => hnd.1 (e ▸ hk)
        cases found
        · simp only [Bool.not_false, if_true]
          rw [GoMap.set_of_not_mem acc image auth himg]
          simp only [GoMap.keys, List.map_append, List.map_cons, List.map_nil, List.mem_append,
            List.mem_singleton, not_or]
          exact ⟨h1, h2⟩
        · simpa using h1
      rw [ih s1 _ hnd.2 hdisj' hok]
      have hfilter : rest.filter (fun p => decide (Event.existsOnHost p.1 false none ∈
            Event.existsOnHost image found none ::
            (runPullCommand.filterLoop c rest s1
              (if !found then acc.set image auth else acc)).2.2.2)) =
          rest.filter (fun p => decide (Event.existsOnHost p.1 false none ∈
            (runPullCommand.filterLoop c rest s1
              (if !found then acc.set image auth else acc)).2.2.2)) := by
        apply List.filter_congr
        intro p hp
        have hne : p.1 ≠ image := fun e => hnd.1 (e ▸ List.mem_map_of_mem Prod.fst hp)
        simp [hne]
      cases found
      · simp only [Bool.not_false, if_true] at hfilter hrest ⊢
        rw [List.filter_cons, if_pos (by simp), hfilter,
          GoMap.set_of_not_mem acc image auth himg]
        simp
      · simp only [Bool.not_true, Bool.false_eq_true, if_false] at hfilter hrest ⊢
        simp [List.filter_cons, hfilter, hrest]
    · rw [filterLoop_cons_err c image auth rest s s1 acc found e h] at hok
      simp at hok

/-- The first loop only adds keys to the map it is given. -/
theorem filterLoop_keys_mono {σ : Type} (c : Client σ) (L : List (String × String)) :
    ∀ (s : σ) (acc : GoMap), ∀ k ∈ acc.keys,
      k ∈ GoMap.keys (runPullCommand.filterLoop c L s acc).2.1 := by
  induction L with
  | nil => intro s acc k hk; simpa [runPullCommand.filterLoop] using hk
  | cons p rest ih =>
    obtain ⟨image, auth⟩ := p
    intro s acc k hk
    rcases h : c.ImageExistsOnHost s image with ⟨⟨found, _ | e⟩, s1⟩
    · rw [filterLoop_cons_ok c image auth rest s s1 acc found h]
      apply ih
      cases found
      · simp only [Bool.not_false, if_true]
        by_cases hm : image ∈ acc.keys
        · rw [GoMap.keys_set_of_mem acc image auth hm]; exact hk
        · rw [GoMap.set_of_not_mem acc image auth hm]
          simp only [GoMap.keys, List.map_append, List.mem_append]
          exact Or.inl hk
      · simpa using hk
    · rw [filterLoop_cons_err c image auth rest s s1 acc found e h]
      exact hk

/-- An image whose check fails in every state makes the first loop fail. -/
theorem filterLoop_fails {σ : Type} (c : Client σ) (img : String)
    (hbad : ∀ s, (c.ImageExistsOnHost s img).1.2 ≠ none) (L : List (String × String)) :
    ∀ (s : σ) (acc : GoMap), img ∈ L.map Prod.fst →
      (runPullCommand.filterLoop c L s acc).1 ≠ none := by
  induction L with
  | nil => intro s acc h; simp at h
  | cons p rest ih =>
    obtain ⟨image, auth⟩ := p
    intro s acc hmem
    rcases h : c.ImageExistsOnHost s image with ⟨⟨found, _ | e⟩, s1⟩
    · rw [filterLoop_cons_ok c image auth rest s s1 acc found h]
      simp only [List.map_cons, List.mem_cons] at hmem
      rcases hmem with hmem | hmem
      · subst hmem
        have := hbad s
        rw [h] at this
        exact absurd rfl this
      · exact ih _ _ hmem
    · rw [filterLoop_cons_err c image auth rest s s1 acc found e h]
      simp

/-- An image that no check reports present is in the map the first loop
returns without error. -/
theorem filterLoop_keeps {σ : Type} (c : Client σ) (img : String)
    (habsent : ∀ s, (c.ImageExistsOnHost s img).1 ≠ (true, none)) (L : List (String × String)) :
    ∀ (s : σ) (acc : GoMap), img ∈ L.map Prod.fst →
      (runPullCommand.filterLoop c L s acc).1 = none →
      img ∈ GoMap.keys (runPullCommand.filterLoop c L s acc).2.1 := by
  induction L with
  | nil => intro s acc h; simp at h
  | cons p rest ih =>
    obtain ⟨image, auth⟩ := p
    intro s acc hmem hok
    rcases h : c.ImageExistsOnHost s image with ⟨⟨found, _ | e⟩, s1⟩
    · rw [filterLoop_cons_ok c image auth rest s s1 acc found h] at hok ⊢
      simp only [List.map_cons, List.mem_cons] at hmem
      by_cases himg : img = image
      · subst himg
        apply filterLoop_keys_mono
        cases found
        · simp only [Bool.not_false, if_true]
          by_cases hm : img ∈ acc.keys
          · rw [GoMap.keys_set_of_mem acc img auth hm]; exact hm
          · rw [GoMap.set_of_not_mem acc img auth hm]
            simp [GoMap.keys]
        · have := habsent s
          rw [h] at this
          exact absurd rfl this
      · rcases hmem with hmem | hmem
        · exact absurd hmem himg
        · exact ih _ _ hmem hok
    · rw [filterLoop_cons_err c image auth rest s s1 acc found e h] at hok
      simp at hok

/-- One iteration of the second loop whose probe answers with an error. -/
theorem validateLoop_cons_err {σ : Type} (c : Client σ) (image auth : String)
    (rest : List (String × String)) (s s1 : σ) (e : String)
    (h : c.ImageExistsAtRemote s image = (some e, s1)) :
    runPullCommand.validateLoop c ((image, auth) :: rest) s =
      (some ("validating remote image: " ++ e), s1, [Event.existsAtRemote image (some e)]) := by
  simp only [runPullCommand.validateLoop, h]

/-- One iteration of the second loop whose probe answers without error. -/
theorem validateLoop_cons_ok {σ : Type} (c : Client σ) (image auth : String)
    (rest : List (String × String)) (s s1 : σ)
    (h : c.ImageExistsAtRemote s image = (none, s1)) :
    runPullCommand.validateLoop c ((image, auth) :: rest) s =
      ((runPullCommand.validateLoop c rest s1).1, (runPullCommand.validateLoop c rest s1).2.1,
        Event.existsAtRemote image none :: (runPullCommand.validateLoop c rest s1).2.2) := by
  simp only [runPullCommand.validateLoop, h]

/-- Every event of the second loop is a probe of an image of the list. -/
theorem validateLoop_trace {σ : Type} (c : Client σ) (L : List (String × String)) :
    ∀ (s : σ), ∀ ev ∈ (runPullCommand.validateLoop c L s).2.2,
      ∃ img err, ev = Event.existsAtRemote img err ∧ img ∈ L.map Prod.fst := by
  induction L with
  | nil => intro s ev h; simp [runPullCommand.validateLoop] at h
  | cons p rest ih =>
    obtain ⟨image, auth⟩ := p
    intro s ev hev
    rcases h : c.ImageExistsAtRemote s image with ⟨_ | e, s1⟩
    · rw [validateLoop_cons_ok c image auth rest s s1 h] at hev
      simp only [List.mem_cons] at hev
      rcases hev with hev | hev
      · exact ⟨image, none, hev, by simp⟩
      · obtain ⟨img, err, h1, h2⟩ := ih _ ev hev
        exact ⟨img, err, h1, by simp [h2]⟩
    · rw [validateLoop_cons_err c image auth rest s s1 e h] at hev
      simp only [List.mem_singleton] at hev
      exact ⟨image, some e, hev, by simp⟩

/-- The second loop returns no error exactly when none of its probes answered
with an error. -/
theorem validateLoop_err {σ : Type} (c : Client σ) (L : List (String × String)) :
    ∀ (s : σ),
      ((runPullCommand.validateLoop c L s).1 = none ∧
        ∀ ev ∈ (runPullCommand.validateLoop c L s).2.2, ev.fatal = false) ∨
      ((runPullCommand.validateLoop c L s).1 ≠ none ∧
        ∃ ev ∈ (runPullCommand.validateLoop c L s).2.2, ev.fatal = true) := by
  induction L with
  | nil => intro s; left; simp [runPullCommand.validateLoop]
  | cons p rest ih =>
    obtain ⟨image, auth⟩ := p
    intro s
    rcases h : c.ImageExistsAtRemote s image with ⟨_ | e, s1⟩
    · rw [validateLoop_cons_ok c image auth rest s s1 h]
      rcases ih s1 with ⟨h1, h2⟩ | ⟨h1, ev, h2, h3⟩
      · left
        refine ⟨h1, ?_⟩
        intro ev hev
        simp only [List.mem_cons] at hev
        rcases hev with hev | hev
        · subst hev; rfl
        · exact h2 ev hev
      · right
        exact ⟨h1, ev, List.mem_cons_of_mem _ h2, h3⟩
    · rw [validateLoop_cons_err c image auth rest s s1 e h]
      right
      exact ⟨by simp, _, List.mem_singleton.mpr rfl, rfl⟩

/-- An image whose probe fails in every state makes the second loop fail. -/
theorem validateLoop_fails {σ : Type} (c : Client σ) (img : String)
    (hbad : ∀ s, (c.ImageExistsAtRemote s img).1 ≠ none) (L : List (String × String)) :
    ∀ (s : σ), img ∈ L.map Prod.fst → (runPullCommand.validateLoop c L s).1 ≠ none := by
  induction L with
  | nil => intro s h; simp at h
  | cons p rest ih =>
    obtain ⟨image, auth⟩ := p
    intro s hmem
    rcases h : c.ImageExistsAtRemote s image with ⟨_ | e, s1⟩
    · rw [validateLoop_cons_ok c image auth rest s s1 h]
      simp only [List.map_cons, List.mem_cons] at hmem
      rcases hmem with hmem | hmem
      · subst hmem
        have := hbad s
        rw [h] at this
        exact absurd rfl this
      · exact ih _ hmem
    · rw [validateLoop_cons_err c image auth rest s s1 e h]
      simp

/-- The second loop reads the image references only. -/
theorem validateLoop_keys {σ : Type} (c : Client σ) (L : List (String × String)) :
    ∀ (L2 : List (String × String)) (s : σ), L.map Prod.fst = L2.map Prod.fst →
      runPullCommand.validateLoop c L s = runPullCommand.validateLoop c L2 s := by
  induction L with
  | nil =>
    intro L2 s h
    cases L2 with
    | nil => rfl
    | cons q r => simp at h
  | cons p rest ih =>
    obtain ⟨image, auth⟩ := p
    intro L2 s h
    cases L2 with
    | nil => simp at h
    | cons q r =>
      obtain ⟨image2, auth2⟩ := q
      simp only [List.map_cons, List.cons.injEq] at h
      obtain ⟨h1, h2⟩ := h
      subst h1
      rcases hc : c.ImageExistsAtRemote s image with ⟨_ | e, s1⟩
      · rw [validateLoop_cons_ok c image auth rest s s1 hc,
          validateLoop_cons_ok c image auth2 r s s1 hc, ih r s1 h2]
      · rw [validateLoop_cons_err c image auth rest s s1 e hc,
          validateLoop_cons_err c image auth2 r s s1 e hc]

/-- The transfer calls of the third loop are the entries of the list, each
once, in order, whatever the calls answer. -/
theorem pullLoop_pullArgs {σ : Type} (c : Client σ) (L : List (String × String)) :
    ∀ (s : σ), (runPullCommand.pullLoop c L s).2.filterMap Event.pullArgs = L := by
  induction L with
  | nil => intro s; rfl
  | cons p rest ih =>
    obtain ⟨image, auth⟩ := p
    intro s
    rcases h : c.PullAndWait s image auth with ⟨_ | e, s1⟩
    · simp [runPullCommand.pullLoop, h, Event.pullArgs, ih]
    · simp [runPullCommand.pullLoop, h, Event.pullArgs, ih]

/-- The third loop makes no existence check and no probe. -/
theorem pullLoop_trace {σ : Type} (c : Client σ) (L : List (String × String)) :
    ∀ (s : σ), ∀ ev ∈ (runPullCommand.pullLoop c L s).2,
      ev.fatal = false ∧ ev.hostArg = none ∧ ev.probeArg = none ∧
        ∀ img, ev.clientImage = some img → img ∈ L.map Prod.fst := by
  induction L with
  | nil => intro s ev h; simp [runPullCommand.pullLoop] at h
  | cons p rest ih =>
    obtain ⟨image, auth⟩ := p
    intro s ev hev
    have hrest : ∀ s1, ev ∈ (runPullCommand.pullLoop c rest s1).2 →
        ev.fatal = false ∧ ev.hostArg = none ∧ ev.probeArg = none ∧
        ∀ img, ev.clientImage = some img → img ∈ ((image, auth) :: rest).map Prod.fst := by
      intro s1 hm
      obtain ⟨a, b, c1, d⟩ := ih s1 ev hm
      exact ⟨a, b, c1, fun img hi => by simp [d img hi]⟩
    rcases h : c.PullAndWait s image auth with ⟨_ | e, s1⟩
    · simp only [runPullCommand.pullLoop, h, List.mem_cons] at hev
      rcases hev with hev | hev | hev
      · subst hev; simp [Event.fatal, Event.hostArg, Event.probeArg, Event.clientImage]
      · subst hev; simp [Event.fatal, Event.hostArg, Event.probeArg, Event.clientImage]
      · exact hrest s1 hev
    · simp only [runPullCommand.pullLoop, h, List.mem_cons] at hev
      rcases hev with hev | hev | hev | hev
      · subst hev; simp [Event.fatal, Event.hostArg, Event.probeArg, Event.clientImage]
      · subst hev; simp [Event.fatal, Event.hostArg, Event.probeArg, Event.clientImage]
      · subst hev; simp [Event.fatal, Event.hostArg, Event.probeArg, Event.clientImage]
      · exact hrest s1 hev

/-! ## The run -/
/-- The three ways lines 70 to 103 can end. -/
theorem reconcile_cases {σ : Type} (env : Env σ) (client : Client σ) (origin : String)
    (images : GoMap) (s : σ) :
    ∃ r1 tp s1 tr1,
      runPullCommand.filterLoop client (images.range env.order1) s GoMap.empty
        = (r1, tp, s1, tr1) ∧
      ((∃ e, r1 = some e ∧
          (runPullCommand.reconcile env client origin images s).err = some e ∧
          (runPullCommand.reconcile env client origin images s).state = s1 ∧
          (runPullCommand.reconcile env client origin images s).trace
            = findingLine origin :: tr1) ∨
       (r1 = none ∧ ∃ r2 s2 tr2,
          runPullCommand.validateLoop client (tp.range env.order2) s1 = (r2, s2, tr2) ∧
          ((∃ e, r2 = some e ∧
              (runPullCommand.reconcile env client origin images s).err = some e ∧
              (runPullCommand.reconcile env client origin images s).state = s2 ∧
              (runPullCommand.reconcile env client origin images s).trace
                = findingLine origin :: (tr1 ++ tr2)) ∨
           (r2 = none ∧
              (runPullCommand.reconcile env client origin images s).err = none ∧
              (runPullCommand.reconcile env client origin images s).state
                = (runPullCommand.pullLoop client (tp.range env.order3) s2).1 ∧
              (runPullCommand.reconcile env client origin images s).trace
                = findingLine origin :: (tr1 ++ tr2 ++
                    (runPullCommand.pullLoop client (tp.range env.order3) s2).2 ++
                    [pulledLine]))))) := by
  rcases hf : runPullCommand.filterLoop client (images.range env.order1) s GoMap.empty
    with ⟨r1, tp, s1, tr1⟩
  refine ⟨r1, tp, s1, tr1, rfl, ?_⟩
  cases r1 with
  | some e =>
    left
    refine ⟨e, rfl, ?_, ?_, ?_⟩ <;> simp only [runPullCommand.reconcile, hf, findingLine]
  | none =>
    right
    refine ⟨rfl, ?_⟩
    rcases hv : runPullCommand.validateLoop client (tp.range env.order2) s1 with ⟨r2, s2, tr2⟩
    refine ⟨r2, s2, tr2, rfl, ?_⟩
    cases r2 with
    | some e =>
      left
      refine ⟨e, rfl, ?_, ?_, ?_⟩ <;> simp only [runPullCommand.reconcile, hf, hv, findingLine]
    | none =>
      right
      refine ⟨rfl, ?_, ?_, ?_⟩ <;>
        simp only [runPullCommand.reconcile, hf, hv, findingLine, pulledLine]

/-- The probes of the second loop, when it returns no error, are on the keys
of the list, each once, in order. -/
theorem validateLoop_probeArgs {σ : Type} (c : Client σ) (L : List (String × String)) :
    ∀ (s : σ), (runPullCommand.validateLoop c L s).1 = none →
      (runPullCommand.validateLoop c L s).2.2.filterMap Event.probeArg = L.map Prod.fst := by
  induction L with
  | nil => intro s _; rfl
  | cons p rest ih =>
    obtain ⟨image, auth⟩ := p
    intro s hok
    rcases h : c.ImageExistsAtRemote s image with ⟨_ | e, s1⟩
    · rw [validateLoop_cons_ok c image auth rest s s1 h] at hok ⊢
      simp only at hok
      simp [Event.probeArg, ih s1 hok]
    · rw [validateLoop_cons_err c image auth rest s s1 e h] at hok
      simp at hok

/-- The shape of the trace of lines 70 to 103 over a Desired State with
distinct keys: checks, then probes, then transfers. -/
theorem reconcile_shape {σ : Type} (env : Env σ) (client : Client σ) (origin : String)
    (images : GoMap) (s : σ) (hnd : images.keys.Nodup) :
    ∃ tr1 tr2 tr3 tp,
      (runPullCommand.reconcile env client origin images s).trace
        = findingLine origin :: (tr1 ++ tr2 ++ tr3) ∧
      (∀ ev ∈ tr1, ∃ img f err, ev = Event.existsOnHost img f err ∧ img ∈ images.keys) ∧
      (∀ img f1 e1 f2 e2, Event.existsOnHost img f1 e1 ∈ tr1 →
        Event.existsOnHost img f2 e2 ∈ tr1 → f1 = f2 ∧ e1 = e2) ∧
      (∀ ev ∈ tr2, ∃ img err, ev = Event.existsAtRemote img err ∧ img ∈ GoMap.keys tp) ∧
      (∀ ev ∈ tr3, ev.fatal = false ∧ ev.hostArg = none ∧ ev.probeArg = none ∧
        ∀ img, ev.clientImage = some img → img ∈ GoMap.keys tp) ∧
      List.Perm tp (workSet images tr1) ∧
      (((runPullCommand.reconcile env client origin images s).err ≠ none ∧
          (∃ ev ∈ tr1 ++ tr2, ev.fatal = true) ∧ tr3 = []) ∨
       ((runPullCommand.reconcile env client origin images s).err = none ∧
          (∀ ev ∈ tr1 ++ tr2, ev.fatal = false) ∧
          List.Perm (tr3.filterMap Event.pullArgs) tp ∧
          List.Perm (tr2.filterMap Event.probeArg) (GoMap.keys tp))) := by
  have hperm := GoMap.range_perm env.order1 images
  have hndL := GoMap.range_keys_nodup env.order1 images hnd
  have hkeys : ∀ k, k ∈ (images.range env.order1).map Prod.fst ↔ k ∈ images.keys :=
    fun k => (hperm.map Prod.fst).mem_iff
  obtain ⟨r1, tp, s1, tr1, hf, hcases⟩ := reconcile_cases env client origin images s
  have hA := filterLoop_trace client (images.range env.order1) s GoMap.empty
  have hB := filterLoop_unique client (images.range env.order1) s GoMap.empty hndL
  have hE := filterLoop_err client (images.range env.order1) s GoMap.empty
  have hD := filterLoop_toPull client (images.range env.order1) s GoMap.empty hndL
    (by intro k _; simp [GoMap.empty, GoMap.keys])
  rw [hf] at hA hB hE hD
  simp only at hA hB hE hD
  have hA' : ∀ ev ∈ tr1, ∃ img f err, ev = Event.existsOnHost img f err ∧ img ∈ images.keys := by
    intro ev hev
    obtain ⟨img, f, err, h1, h2⟩ := hA ev hev
    exact ⟨img, f, err, h1, (hkeys img).mp h2⟩
  rcases hcases with ⟨e, hr1, herr, _, htr⟩ | ⟨hr1, r2, s2, tr2, hv, hcases2⟩
  · refine ⟨tr1, [], [], workSet images tr1, by simp [htr], hA', hB, by simp, by simp,
      List.Perm.refl _, Or.inl ⟨by simp [herr], ?_, rfl⟩⟩
    subst hr1
    rcases hE with ⟨h1, _⟩ | ⟨_, ev, h2, h3⟩
    · simp at h1
    · exact ⟨ev, by simp [h2], h3⟩
  · subst hr1
    have htp : tp = (images.range env.order1).filter
        (fun p => decide (Event.existsOnHost p.1 false none ∈ tr1)) := by
      have := hD rfl
      simpa [GoMap.empty] using this
    have htpPerm : List.Perm tp (workSet images tr1) := by
      rw [htp]
      exact hperm.filter _
    have hnof1 : ∀ ev ∈ tr1, ev.fatal = false := by
      rcases hE with ⟨_, h2⟩ | ⟨h1, _⟩
      · exact h2
      · exact absurd rfl h1
    have hV := validateLoop_trace client (tp.range env.order2) s1
    have hVE := validateLoop_err client (tp.range env.order2) s1
    rw [hv] at hV hVE
    simp only at hV hVE
    have hV' : ∀ ev ∈ tr2, ∃ img err, ev = Event.existsAtRemote img err ∧ img ∈ GoMap.keys tp := by
      intro ev hev
      obtain ⟨img, err, h1, h2⟩ := hV ev hev
      exact ⟨img, err, h1, ((GoMap.range_perm env.order2 tp).map Prod.fst).mem_iff.mp h2⟩
    rcases hcases2 with ⟨e, hr2, herr, _, htr⟩ | ⟨hr2, herr, _, htr⟩
    · subst hr2
      refine ⟨tr1, tr2, [], tp, by simp [htr], hA', hB, hV', by simp, htpPerm,
        Or.inl ⟨by simp [herr], ?_, rfl⟩⟩
      rcases hVE with ⟨h1, _⟩ | ⟨_, ev, h2, h3⟩
      · simp at h1
      · exact ⟨ev, by simp [h2], h3⟩
    · subst hr2
      have hnof2 : ∀ ev ∈ tr2, ev.fatal = false := by
        rcases hVE with ⟨_, h2⟩ | ⟨h1, _⟩
        · exact h2
        · exact absurd rfl h1
      refine ⟨tr1, tr2, (runPullCommand.pullLoop client (tp.range env.order3) s2).2 ++
        [pulledLine], tp, by simp [htr], hA', hB, hV', ?_, htpPerm, Or.inr ⟨herr, ?_, ?_, ?_⟩⟩
      · intro ev hev
        simp only [List.mem_append, List.mem_singleton] at hev
        rcases hev with hev | hev
        · obtain ⟨a, b, c, d⟩ := pullLoop_trace client (tp.range env.order3) s2 ev hev
          exact ⟨a, b, c, fun img hi =>
            ((GoMap.range_perm env.order3 tp).map Prod.fst).mem_iff.mp (d img hi)⟩
        · subst hev
          simp [pulledLine, Event.fatal, Event.hostArg, Event.probeArg, Event.clientImage]
      · intro ev hev
        simp only [List.mem_append] at hev
        rcases hev with hev | hev
        · exact hnof1 ev hev
        · exact hnof2 ev hev
      · rw [List.filterMap_append, pullLoop_pullArgs]
        simp only [pulledLine, List.filterMap_cons, Event.pullArgs, List.filterMap_nil,
          List.append_nil]
        exact GoMap.range_perm env.order3 tp
      · have hpa := validateLoop_probeArgs client (tp.range env.order2) s1
        rw [hv] at hpa
        rw [hpa rfl]
        exact (GoMap.range_perm env.order2 tp).map Prod.fst

/-! ## The Desired State builders -/

/-- The loop of `getImagesFromCommandLine` is `insertAll` on its entries. -/
theorem commandLine_loop_insertAll (rh : String → String) (ga : String → Except String String)
    (l : List String) : ∀ (acc : GoMap),
      (getImagesFromCommandLine.loop rh ga l acc).toOption
        = insertAll (l.map (fun image => (image, ga (rh image)))) acc := by
  induction l with
  | nil => intro acc; rfl
  | cons image rest ih =>
    intro acc
    rcases h : ga (rh image) with e | auth
    · simp [getImagesFromCommandLine.loop, insertAll, h, Except.toOption]
    · simp [getImagesFromCommandLine.loop, insertAll, h, ih]

/-- The loop of `getImagesFromManifest` is `insertAll` on the picked entries. -/
theorem manifest_loop_insertAll (uf : Char → Char → Bool) (origin : String)
    (l : List Source) : ∀ (acc : GoMap),
      (getImagesFromManifest.loop uf origin l acc).toOption
        = insertAll (l.map (getImagesFromManifest.pick uf origin)) acc := by
  induction l with
  | nil => intro acc; rfl
  | cons src rest ih =>
    intro acc
    rcases h : getImagesFromManifest.pick uf origin src with ⟨image, e | auth⟩
    · simp [getImagesFromManifest.loop, insertAll, h, Except.toOption]
    · simp [getImagesFromManifest.loop, insertAll, h, ih]

/-- A result whose `toOption` is `none` is an error. -/
theorem toOption_eq_none {ε α : Type} (x : Except ε α) :
    x.toOption = none ↔ ∃ e, x = .error e := by
  cases x <;> simp [Except.toOption]

/-- `insertAll` keeps the keys distinct. -/
theorem insertAll_nodup (es : List (String × Except String String)) :
    ∀ (acc m : GoMap), insertAll es acc = some m → acc.keys.Nodup → m.keys.Nodup := by
  induction es with
  | nil => intro acc m h hnd; simp only [insertAll, Option.some.injEq] at h; exact h ▸ hnd
  | cons p rest ih =>
    obtain ⟨k, e | v⟩ := p
    · intro acc m h; simp [insertAll] at h
    · intro acc m h hnd
      simp only [insertAll] at h
      exact ih _ _ h (GoMap.set_keys_nodup acc k v hnd)

/-- `insertAll` fails when a credential result is an error. -/
theorem insertAll_none (es : List (String × Except String String)) :
    ∀ (acc : GoMap), (∃ p ∈ es, ∃ e, p.2 = Except.error e) → insertAll es acc = none := by
  induction es with
  | nil => intro acc h; simp at h
  | cons p rest ih =>
    obtain ⟨k, e | v⟩ := p
    · intro acc _; simp [insertAll]
    · intro acc h
      simp only [insertAll]
      apply ih
      obtain ⟨q, hq, e, he⟩ := h
      simp only [List.mem_cons] at hq
      rcases hq with hq | hq
      · subst hq; simp at he
      · exact ⟨q, hq, e, he⟩

/-- The value `insertAll` leaves for a key is the one of the last entry with
that key, or else the value the key had before. -/
theorem insertAll_get (es : List (String × Except String String)) :
    ∀ (acc m : GoMap), insertAll es acc = some m → ∀ k,
      Option.map Except.ok (m.get k) =
        match lastValue k es with
        | some v => some v
        | none => Option.map Except.ok (acc.get k) := by
  induction es with
  | nil => intro acc m h k; simp only [insertAll, Option.some.injEq] at h; simp [lastValue, h]
  | cons p rest ih =>
    obtain ⟨k0, e | v⟩ := p
    · intro acc m h; simp [insertAll] at h
    · intro acc m h k
      simp only [insertAll] at h
      rw [ih _ _ h k, GoMap.get_set]
      simp only [lastValue]
      cases lastValue k rest with
      | some w => rfl
      | none => by_cases hk : k0 = k <;> simp [hk]

/-- The keys after `insertAll` are the keys before and the keys inserted. -/
theorem insertAll_keys (es : List (String × Except String String)) :
    ∀ (acc m : GoMap), insertAll es acc = some m → ∀ k,
      k ∈ m.keys ↔ k ∈ acc.keys ∨ k ∈ es.map Prod.fst := by
  induction es with
  | nil => intro acc m h k; simp only [insertAll, Option.some.injEq] at h; simp [h]
  | cons p rest ih =>
    obtain ⟨k0, e | v⟩ := p
    · intro acc m h; simp [insertAll] at h
    · intro acc m h k
      simp only [insertAll] at h
      rw [ih _ _ h k]
      by_cases hm : k0 ∈ acc.keys
      · rw [GoMap.keys_set_of_mem acc k0 v hm]
        simp only [List.map_cons, List.mem_cons]
        constructor
        · rintro (h1 | h1)
          · exact Or.inl h1
          · exact Or.inr (Or.inr h1)
        · rintro (h1 | h1 | h1)
          · exact Or.inl h1
          · exact Or.inl (h1 ▸ hm)
          · exact Or.inr h1
      · rw [GoMap.set_of_not_mem acc k0 v hm]
        simp only [GoMap.keys, List.map_append, List.map_cons, List.map_nil, List.mem_append,
          List.mem_singleton, List.mem_cons]
        tauto

/-- The Desired State of `getImagesFromCommandLine`, through `insertAll`. -/
theorem commandLine_insertAll {σ : Type} (env : Env σ) (images : List String) :
    (getImagesFromCommandLine env images).toOption
      = insertAll (commandLineEntries env images) GoMap.empty :=
  commandLine_loop_insertAll env.registryHost env.getEncodedAuthForHost images GoMap.empty

/-- The Desired State of `getImagesFromManifest`, through `insertAll`. -/
theorem manifest_insertAll {σ : Type} (env : Env σ) (path origin : String) (mf : Manifest)
    (hget : env.manifestGet path = .ok mf) :
    (getImagesFromManifest env path origin).1.toOption
      = insertAll (mf.Sources.map (getImagesFromManifest.pick env.unicodeFold origin))
          GoMap.empty := by
  simp only [getImagesFromManifest, hget]
  exact manifest_loop_insertAll env.unicodeFold origin mf.Sources GoMap.empty

/-- The keys of a Desired State are distinct. -/
theorem images_nodup {σ : Type} (env : Env σ) (origin : String) (images : GoMap)
    (h : (runPullCommand.images env origin).1 = .ok images) : images.keys.Nodup := by
  have hempty : GoMap.keys GoMap.empty = [] := rfl
  unfold runPullCommand.images at h
  split at h
  · have h2 := commandLine_insertAll env env.imagesFlag
    simp only at h
    rw [h] at h2
    exact insertAll_nodup _ _ _ h2.symm (by simp [hempty])
  · rcases hget : env.manifestGet env.manifestPath with e | mf
    · simp [getImagesFromManifest, hget] at h
    · have h2 := manifest_insertAll env env.manifestPath origin mf hget
      rw [h] at h2
      exact insertAll_nodup _ _ _ h2.symm (by simp [hempty])

/-- Building the Desired State calls nothing but `manifest.Get`. -/
theorem images_trace {σ : Type} (env : Env σ) (origin : String) :
    ∀ ev ∈ (runPullCommand.images env origin).2, ev = Event.manifestGet env.manifestPath := by
  intro ev hev
  unfold runPullCommand.images at hev
  split at hev
  · simp at hev
  · unfold getImagesFromManifest at hev
    split at hev <;> simpa using hev

/-- The ways `runPullCommand` can go until the Desired State exists. -/
theorem run_cases {σ : Type} (env : Env σ) (origin : String) (s : σ) :
    (∃ e, env.dockerNew = .error e ∧ (runPullCommand env origin s).err ≠ none ∧
        (runPullCommand env origin s).trace = [] ∧ (runPullCommand env origin s).state = s) ∨
    (∃ client, env.dockerNew = .ok client ∧
      ((∃ e, (runPullCommand.images env origin).1 = .error e ∧
          (runPullCommand env origin s).err ≠ none ∧
          (runPullCommand env origin s).state = s ∧
          (runPullCommand env origin s).trace = (runPullCommand.images env origin).2) ∨
       (∃ images, (runPullCommand.images env origin).1 = .ok images ∧
          (runPullCommand env origin s).err
            = (runPullCommand.reconcile env client origin images s).err ∧
          (runPullCommand env origin s).state
            = (runPullCommand.reconcile env client origin images s).state ∧
          (runPullCommand env origin s).trace
            = (runPullCommand.images env origin).2 ++
                (runPullCommand.reconcile env client origin images s).trace))) := by
  rcases hnew : env.dockerNew with e | client
  · left
    exact ⟨e, rfl, by simp [runPullCommand, hnew], by simp [runPullCommand, hnew],
      by simp [runPullCommand, hnew]⟩
  · right
    refine ⟨client, rfl, ?_⟩
    rcases himg : runPullCommand.images env origin with ⟨e | images, tr0⟩
    · left
      exact ⟨e, rfl, by simp [runPullCommand, hnew, himg], by simp [runPullCommand, hnew, himg],
        by simp [runPullCommand, hnew, himg]⟩
    · right
      exact ⟨images, rfl, by simp [runPullCommand, hnew, himg],
        by simp [runPullCommand, hnew, himg], by simp [runPullCommand, hnew, himg]⟩

/-- The shape of the trace of a run: either no Desired State was built and the
run failed having at most read the manifest, or the trace is a prelude
without client calls, then checks, then probes, then transfers. -/
theorem run_shape {σ : Type} (env : Env σ) (origin : String) (s : σ) :
    ((runPullCommand env origin s).err ≠ none ∧
      (∀ client images, env.dockerNew = .ok client →
        (runPullCommand.images env origin).1 ≠ .ok images) ∧
      ∀ ev ∈ (runPullCommand env origin s).trace, ev = Event.manifestGet env.manifestPath) ∨
    (∃ client images, env.dockerNew = .ok client ∧
      (runPullCommand.images env origin).1 = .ok images ∧ images.keys.Nodup ∧
      ∃ tr0 tr1 tr2 tr3 tp,
        (runPullCommand env origin s).trace = tr0 ++ (tr1 ++ tr2 ++ tr3) ∧
        (∀ ev ∈ tr0, ev = Event.manifestGet env.manifestPath ∨ ev = findingLine origin) ∧
        (∀ ev ∈ tr1, ∃ img f err, ev = Event.existsOnHost img f err ∧ img ∈ images.keys) ∧
        (∀ img f1 e1 f2 e2, Event.existsOnHost img f1 e1 ∈ tr1 →
          Event.existsOnHost img f2 e2 ∈ tr1 → f1 = f2 ∧ e1 = e2) ∧
        (∀ ev ∈ tr2, ∃ img err, ev = Event.existsAtRemote img err ∧ img ∈ GoMap.keys tp) ∧
        (∀ ev ∈ tr3, ev.fatal = false ∧ ev.hostArg = none ∧ ev.probeArg = none ∧
          ∀ img, ev.clientImage = some img → img ∈ GoMap.keys tp) ∧
        List.Perm tp (workSet images tr1) ∧
        (((runPullCommand env origin s).err ≠ none ∧
            (∃ ev ∈ tr1 ++ tr2, ev.fatal = true) ∧ tr3 = []) ∨
         ((runPullCommand env origin s).err = none ∧
            (∀ ev ∈ tr1 ++ tr2, ev.fatal = false) ∧
            List.Perm (tr3.filterMap Event.pullArgs) tp ∧
            List.Perm (tr2.filterMap Event.probeArg) (GoMap.keys tp)))) := by
  rcases run_cases env origin s with ⟨e, hnew, herr, htr, _⟩ | ⟨client, hnew, hrest⟩
  · left
    refine ⟨herr, ?_, by simp [htr]⟩
    intro client images hc
    rw [hnew] at hc
    simp at hc
  · rcases hrest with ⟨e, himg, herr, _, htr⟩ | ⟨images, himg, herr, _, htr⟩
    · left
      refine ⟨herr, ?_, ?_⟩
      · intro c images _ h2
        rw [himg] at h2
        simp at h2
      · rw [htr]
        exact images_trace env origin
    · right
      have hnd := images_nodup env origin images himg
      obtain ⟨tr1, tr2, tr3, tp, h1, h2, h3, h4, h5, h6, h7⟩ :=
        reconcile_shape env client origin images s hnd
      refine ⟨client, images, hnew, himg, hnd,
        (runPullCommand.images env origin).2 ++ [findingLine origin], tr1, tr2, tr3, tp,
        by simp [htr, h1], ?_, h2, h3, h4, h5, h6, ?_⟩
      · intro ev hev
        simp only [List.mem_append, List.mem_singleton] at hev
        rcases hev with hev | hev
        · exact Or.inl (images_trace env origin ev hev)
        · exact Or.inr hev
      · rw [herr]
        exact h7

/-- An existence check in a trace of the shape of `run_shape` is in the
checks part. -/
theorem mem_shape_host {tr0 tr1 tr2 tr3 : List Event} {p o : String} {keys : List String}
    (h0 : ∀ ev ∈ tr0, ev = Event.manifestGet p ∨ ev = findingLine o)
    (h2 : ∀ ev ∈ tr2, ∃ img err, ev = Event.existsAtRemote img err ∧ img ∈ keys)
    (h3 : ∀ ev ∈ tr3, ev.fatal = false ∧ ev.hostArg = none ∧ ev.probeArg = none ∧
          ∀ img, ev.clientImage = some img → img ∈ keys)
    {img : String} {f : Bool} {e : Option String}
    (h : Event.existsOnHost img f e ∈ tr0 ++ (tr1 ++ tr2 ++ tr3)) :
    Event.existsOnHost img f e ∈ tr1 := by
  simp only [List.mem_append] at h
  rcases h with h | (h | h) | h
  · rcases h0 _ h with h | h
    · cases h
    · simp [findingLine] at h
  · exact h
  · obtain ⟨_, _, h, _⟩ := h2 _ h
    cases h
  · have := (h3 _ h).2.1
    simp [Event.hostArg] at this

/-- A probe in a trace of the shape of `run_shape` is on a key of the map
probed. -/
theorem mem_shape_probe {tr0 tr1 tr2 tr3 : List Event} {p o : String} {keys keys1 : List String}
    (h0 : ∀ ev ∈ tr0, ev = Event.manifestGet p ∨ ev = findingLine o)
    (h1 : ∀ ev ∈ tr1, ∃ img f err, ev = Event.existsOnHost img f err ∧ img ∈ keys1)
    (h2 : ∀ ev ∈ tr2, ∃ img err, ev = Event.existsAtRemote img err ∧ img ∈ keys)
    (h3 : ∀ ev ∈ tr3, ev.fatal = false ∧ ev.hostArg = none ∧ ev.probeArg = none ∧
          ∀ img, ev.clientImage = some img → img ∈ keys)
    {img : String} {e : Option String}
    (h : Event.existsAtRemote img e ∈ tr0 ++ (tr1 ++ tr2 ++ tr3)) :
    img ∈ keys := by
  simp only [List.mem_append] at h
  rcases h with h | (h | h) | h
  · rcases h0 _ h with h | h
    · cases h
    · simp [findingLine] at h
  · obtain ⟨_, _, _, h, _⟩ := h1 _ h
    cases h
  · obtain ⟨_, _, h, hk⟩ := h2 _ h
    cases h
    exact hk
  · have := (h3 _ h).2.2.1
    simp [Event.probeArg] at this

/-- A transfer in a trace of the shape of `run_shape` is in the transfers
part. -/
theorem mem_shape_pull {tr0 tr1 tr2 tr3 : List Event} {p o : String} {keys keys1 : List String}
    (h0 : ∀ ev ∈ tr0, ev = Event.manifestGet p ∨ ev = findingLine o)
    (h1 : ∀ ev ∈ tr1, ∃ img f err, ev = Event.existsOnHost img f err ∧ img ∈ keys1)
    (h2 : ∀ ev ∈ tr2, ∃ img err, ev = Event.existsAtRemote img err ∧ img ∈ keys)
    {img auth : String} {e : Option String}
    (h : Event.pullAndWait img auth e ∈ tr0 ++ (tr1 ++ tr2 ++ tr3)) :
    Event.pullAndWait img auth e ∈ tr3 := by
  simp only [List.mem_append] at h
  rcases h with h | (h | h) | h
  · rcases h0 _ h with h | h
    · cases h
    · simp [findingLine] at h
  · obtain ⟨_, _, _, h, _⟩ := h1 _ h
    cases h
  · obtain ⟨_, _, h, _⟩ := h2 _ h
    cases h
  · exact h

/-- The keys of the Work Set are the images reported absent. -/
theorem mem_workSet_keys {images : GoMap} {tr : List Event} {img : String}
    (h : img ∈ GoMap.keys (workSet images tr)) : Event.existsOnHost img false none ∈ tr := by
  simp only [GoMap.keys, workSet, List.mem_map, List.mem_filter, decide_eq_true_eq] at h
  obtain ⟨p, ⟨_, hp⟩, rfl⟩ := h
  exact hp

/-! ## The properties of the run -/

/-- C1: in a run of runPullCommand, an image for which the local existence
check returned (true, no error) is passed neither to ImageExistsAtRemote nor to
PullAndWait, for every Desired State, every client and every iteration order
of the maps. -/
theorem present_image_never_probed_nor_pulled {σ : Type} (env : Env σ) (origin : String)
    (s : σ) (img : String)
    (h : Event.existsOnHost img true none ∈ (runPullCommand env origin s).trace) :
    (∀ err, Event.existsAtRemote img err ∉ (runPullCommand env origin s).trace) ∧
    (∀ auth err, Event.pullAndWait img auth err ∉ (runPullCommand env origin s).trace) := by
  rcases run_shape env origin s with ⟨_, _, hall⟩ |
    ⟨client, images, _, _, _, tr0, tr1, tr2, tr3, tp, htr, h0, h1, huniq, h2, h3, hperm, _⟩
  · have := hall _ h
    cases this
  · rw [htr] at h ⊢
    have hin := mem_shape_host h0 h2 h3 h
    have hnot : img ∉ GoMap.keys tp := by
      intro hk
      have hk2 : img ∈ GoMap.keys (workSet images tr1) := (hperm.map Prod.fst).mem_iff.mp hk
      have := huniq img true none false none hin (mem_workSet_keys hk2)
      simp at this
    constructor
    · intro err hm
      exact hnot (mem_shape_probe h0 h1 h2 h3 hm)
    · intro auth err hm
      have hm3 := mem_shape_pull h0 h1 h2 hm
      exact hnot ((h3 _ hm3).2.2.2 img rfl)

/-- In a map with distinct keys, an entry is what `get` returns for its key. -/
theorem GoMap.mem_iff_get (m : GoMap) (h : m.keys.Nodup) (k v : String) :
    (k, v) ∈ m ↔ m.get k = some v := by
  induction m with
  | nil => simp [GoMap.get]
  | cons p rest ih =>
    obtain ⟨k0, v0⟩ := p
    simp only [GoMap.keys, List.map_cons, List.nodup_cons] at h
    have ih' := ih h.2
    by_cases hk : k0 = k
    · subst hk
      simp only [List.mem_cons, Prod.mk.injEq, true_and, GoMap.get, if_true, Option.some.injEq]
      constructor
      · rintro (h1 | h1)
        · exact h1.symm
        · exact absurd (List.mem_map_of_mem Prod.fst h1) h.1
      · intro h1; exact Or.inl h1.symm
    · simp only [List.mem_cons, Prod.mk.injEq, GoMap.get, hk, if_false]
      rw [← ih']
      constructor
      · rintro (h1 | h1)
        · exact absurd h1.1.symm hk
        · exact h1
      · intro h1; exact Or.inr h1

/-- A run with a client and a Desired State returns what lines 70 to 103
return. -/
theorem run_err_eq {σ : Type} (env : Env σ) (origin : String) (s : σ) (client : Client σ)
    (images : GoMap) (hnew : env.dockerNew = .ok client)
    (himg : (runPullCommand.images env origin).1 = .ok images) :
    (runPullCommand env origin s).err
        = (runPullCommand.reconcile env client origin images s).err ∧
    (runPullCommand env origin s).state
        = (runPullCommand.reconcile env client origin images s).state ∧
    (runPullCommand env origin s).trace
        = (runPullCommand.images env origin).2 ++
            (runPullCommand.reconcile env client origin images s).trace := by
  rcases run_cases env origin s with ⟨e, hnew2, _⟩ | ⟨client2, hnew2, hrest⟩
  · rw [hnew] at hnew2; cases hnew2
  · rw [hnew] at hnew2
    cases hnew2
    rcases hrest with ⟨e, himg2, _⟩ | ⟨images2, himg2, h1, h2, h3⟩
    · rw [himg] at himg2; cases himg2
    · rw [himg] at himg2
      cases himg2
      exact ⟨h1, h2, h3⟩

/-- An image of the Desired State whose existence check fails in every state
makes lines 70 to 103 return an error. -/
theorem reconcile_err_of_bad_check {σ : Type} (env : Env σ) (client : Client σ)
    (origin : String) (images : GoMap) (s : σ) (img : String) (hmem : img ∈ images.keys)
    (hbad : ∀ s', (client.ImageExistsOnHost s' img).1.2 ≠ none) :
    (runPullCommand.reconcile env client origin images s).err ≠ none := by
  obtain ⟨r1, tp, s1, tr1, hf, hcases⟩ := reconcile_cases env client origin images s
  have hin : img ∈ (images.range env.order1).map Prod.fst :=
    ((GoMap.range_perm env.order1 images).map Prod.fst).mem_iff.mpr hmem
  have := filterLoop_fails client img hbad (images.range env.order1) s GoMap.empty hin
  rw [hf] at this
  rcases hcases with ⟨e, _, herr, _⟩ | ⟨hr1, _⟩
  · simp [herr]
  · exact absurd hr1 this

/-- An image of the Desired State that is never reported present and whose
probe fails in every state makes lines 70 to 103 return an error. -/
theorem reconcile_err_of_bad_probe {σ : Type} (env : Env σ) (client : Client σ)
    (origin : String) (images : GoMap) (s : σ) (img : String) (hmem : img ∈ images.keys)
    (habsent : ∀ s', (client.ImageExistsOnHost s' img).1 ≠ (true, none))
    (hbad : ∀ s', (client.ImageExistsAtRemote s' img).1 ≠ none) :
    (runPullCommand.reconcile env client origin images s).err ≠ none := by
  obtain ⟨r1, tp, s1, tr1, hf, hcases⟩ := reconcile_cases env client origin images s
  have hin : img ∈ (images.range env.order1).map Prod.fst :=
    ((GoMap.range_perm env.order1 images).map Prod.fst).mem_iff.mpr hmem
  have hkeep := filterLoop_keeps client img habsent (images.range env.order1) s GoMap.empty hin
  rw [hf] at hkeep
  rcases hcases with ⟨e, _, herr, _⟩ | ⟨hr1, r2, s2, tr2, hv, hcases2⟩
  · simp [herr]
  · have htp : img ∈ (tp.range env.order2).map Prod.fst :=
      ((GoMap.range_perm env.order2 tp).map Prod.fst).mem_iff.mpr (hkeep hr1)
    have := validateLoop_fails client img hbad (tp.range env.order2) s1 htp
    rw [hv] at this
    rcases hcases2 with ⟨e, _, herr, _⟩ | ⟨hr2, _⟩
    · simp [herr]
    · exact absurd hr2 this

/-- C2: if a local existence check of the run answered with an error, or a
remote-validation probe of the run did, or the check fails (in whatever state)
for an image of the Desired State, or the probe fails for an image of the
Desired State that the check never reports present (an image of the Work Set),
then runPullCommand returns an error and PullAndWait is invoked for no image,
whatever the iteration order of the maps. -/
theorem failed_check_or_probe_aborts_before_transfer {σ : Type} (env : Env σ)
    (origin : String) (s : σ) (client : Client σ) (images : GoMap)
    (hnew : env.dockerNew = .ok client)
    (himg : (runPullCommand.images env origin).1 = .ok images)
    (h : (∃ ev ∈ (runPullCommand env origin s).trace, ev.fatal = true) ∨
         (∃ img ∈ images.keys, ∀ s', (client.ImageExistsOnHost s' img).1.2 ≠ none) ∨
         (∃ img ∈ images.keys, (∀ s', (client.ImageExistsOnHost s' img).1 ≠ (true, none)) ∧
            ∀ s', (client.ImageExistsAtRemote s' img).1 ≠ none)) :
    (runPullCommand env origin s).err ≠ none ∧
    ∀ img auth err, Event.pullAndWait img auth err ∉ (runPullCommand env origin s).trace := by
  have herrEq := (run_err_eq env origin s client images hnew himg).1
  have herr : (runPullCommand env origin s).err ≠ none := by
    rcases h with ⟨ev, hev, hfatal⟩ | ⟨img, hmem, hbad⟩ | ⟨img, hmem, habsent, hbad⟩
    · rcases run_shape env origin s with ⟨he, _⟩ |
        ⟨_, _, _, _, _, tr0, tr1, tr2, tr3, tp, htr, h0, _, _, _, h3, _, hend⟩
      · exact he
      · rcases hend with ⟨he, _⟩ | ⟨_, hno, _⟩
        · exact he
        · rw [htr] at hev
          simp only [List.mem_append] at hev
          rcases hev with hev | hev | hev
          · rcases h0 _ hev with h | h <;> subst h <;> simp [Event.fatal, findingLine] at hfatal
          · rw [hno ev (List.mem_append.mpr hev)] at hfatal
            cases hfatal
          · rw [(h3 ev hev).1] at hfatal
            cases hfatal
    · rw [herrEq]
      exact reconcile_err_of_bad_check env client origin images s img hmem hbad
    · rw [herrEq]
      exact reconcile_err_of_bad_probe env client origin images s img hmem habsent hbad
  refine ⟨herr, ?_⟩
  intro img auth err hm
  rcases run_shape env origin s with ⟨_, _, hall⟩ |
    ⟨_, _, _, _, _, tr0, tr1, tr2, tr3, tp, htr, h0, h1, _, h2, _, _, hend⟩
  · have := hall _ hm
    cases this
  · rw [htr] at hm
    have hm3 := mem_shape_pull h0 h1 h2 hm
    rcases hend with ⟨_, _, h3nil⟩ | ⟨he, _⟩
    · rw [h3nil] at hm3
      cases hm3
    · exact herr he

/-- The transfer calls and the Work Set of a trace of the shape of
`run_shape` are those of its parts. -/
theorem shape_pulls_workSet {tr0 tr1 tr2 tr3 : List Event} {p o : String}
    {keys keys1 : List String} (images : GoMap)
    (h0 : ∀ ev ∈ tr0, ev = Event.manifestGet p ∨ ev = findingLine o)
    (h1 : ∀ ev ∈ tr1, ∃ img f err, ev = Event.existsOnHost img f err ∧ img ∈ keys1)
    (h2 : ∀ ev ∈ tr2, ∃ img err, ev = Event.existsAtRemote img err ∧ img ∈ keys)
    (h3 : ∀ ev ∈ tr3, ev.fatal = false ∧ ev.hostArg = none ∧ ev.probeArg = none ∧
          ∀ img, ev.clientImage = some img → img ∈ keys) :
    (tr0 ++ (tr1 ++ tr2 ++ tr3)).filterMap Event.pullArgs = tr3.filterMap Event.pullArgs ∧
    workSet images (tr0 ++ (tr1 ++ tr2 ++ tr3)) = workSet images tr1 := by
  constructor
  · have e0 : tr0.filterMap Event.pullArgs = [] := by
      rw [List.filterMap_eq_nil_iff]
      intro ev hev
      rcases h0 _ hev with h | h <;> subst h <;> rfl
    have e1 : tr1.filterMap Event.pullArgs = [] := by
      rw [List.filterMap_eq_nil_iff]
      intro ev hev
      obtain ⟨_, _, _, h, _⟩ := h1 _ hev
      subst h; rfl
    have e2 : tr2.filterMap Event.pullArgs = [] := by
      rw [List.filterMap_eq_nil_iff]
      intro ev hev
      obtain ⟨_, _, h, _⟩ := h2 _ hev
      subst h; rfl
    simp [List.filterMap_append, e0, e1, e2]
  · unfold workSet
    apply List.filter_congr
    intro q _
    have : Event.existsOnHost q.1 false none ∈ tr0 ++ (tr1 ++ tr2 ++ tr3) ↔
        Event.existsOnHost q.1 false none ∈ tr1 :=
      ⟨fun h => mem_shape_host h0 h2 h3 h, fun h => by simp [h]⟩
    simp only [this]

/-- C3: when the Desired State is built and no local existence check and no
remote-validation probe of the run answers with an error, the transfer calls
of the run are, up to order, exactly the entries (image, credential) of the
Work Set, one call each: no image is transferred twice, none outside the Work
Set is transferred, and the answers of the transfers play no part.  The Work
Set is made of the images the check reported absent, each with the credential
it has in the Desired State. -/
theorem transfers_are_exactly_the_work_set {σ : Type} (env : Env σ) (origin : String)
    (s : σ) (client : Client σ) (images : GoMap)
    (hnew : env.dockerNew = .ok client)
    (himg : (runPullCommand.images env origin).1 = .ok images)
    (hok : ∀ ev ∈ (runPullCommand env origin s).trace, ev.fatal = false) :
    List.Perm ((runPullCommand env origin s).trace.filterMap Event.pullArgs)
      (workSet images (runPullCommand env origin s).trace) ∧
    (((runPullCommand env origin s).trace.filterMap Event.pullArgs).map Prod.fst).Nodup ∧
    (∀ img auth, (img, auth) ∈ workSet images (runPullCommand env origin s).trace ↔
      (images.get img = some auth ∧
        Event.existsOnHost img false none ∈ (runPullCommand env origin s).trace)) := by
  have hnd := images_nodup env origin images himg
  have h3 : ∀ img auth, (img, auth) ∈ workSet images (runPullCommand env origin s).trace ↔
      (images.get img = some auth ∧
        Event.existsOnHost img false none ∈ (runPullCommand env origin s).trace) := by
    intro img auth
    simp only [workSet, List.mem_filter, decide_eq_true_eq]
    rw [GoMap.mem_iff_get images hnd]
  rcases run_shape env origin s with ⟨_, hno, _⟩ |
    ⟨client2, images2, _, himg2, _, tr0, tr1, tr2, tr3, tp, htr, h0, h1, _, h2, h3', hperm, hend⟩
  · exact absurd himg (hno client images hnew)
  · rw [himg] at himg2
    cases himg2
    have hP : List.Perm ((runPullCommand env origin s).trace.filterMap Event.pullArgs)
        (workSet images (runPullCommand env origin s).trace) := by
      rw [htr]
      obtain ⟨e1, e2⟩ := shape_pulls_workSet images h0 h1 h2 h3'
      rw [e1, e2]
      rcases hend with ⟨_, ⟨ev, hev, hfatal⟩, _⟩ | ⟨_, _, hp, _⟩
      · have := hok ev (by rw [htr]; simp only [List.mem_append] at hev ⊢; tauto)
        rw [this] at hfatal
        cases hfatal
      · exact hp.trans hperm
    refine ⟨hP, ?_, h3⟩
    have hsub : (workSet images (runPullCommand env origin s).trace).Sublist images :=
      List.filter_sublist _
    have hnd2 : ((workSet images (runPullCommand env origin s).trace).map Prod.fst).Nodup :=
      List.Nodup.sublist (hsub.map Prod.fst) hnd
    exact ((hP.map Prod.fst).nodup_iff).mpr hnd2

/-- C4: when the client is created, the Desired State is built and no local
existence check and no remote-validation probe answers with an error,
runPullCommand returns no error, whatever the transfers answer, and the
process exits with status 0; an empty Desired State gives such a run, without
any call of the registry client. -/
theorem transfer_failures_are_not_fatal {σ : Type} (env : Env σ) (origin : String)
    (s : σ) (client : Client σ) (images : GoMap)
    (hnew : env.dockerNew = .ok client)
    (himg : (runPullCommand.images env origin).1 = .ok images)
    (h : (∀ ev ∈ (runPullCommand env origin s).trace, ev.fatal = false) ∨ images = []) :
    (runPullCommand env origin s).err = none ∧
    (∀ args, newPullCommand.origin args = origin →
      (newPullCommand.RunE env args s).err = none ∧
      main (newPullCommand.RunE env args s).err = 0) ∧
    (images = [] → ∀ ev ∈ (runPullCommand env origin s).trace, ev.clientImage = none) := by
  rcases run_shape env origin s with ⟨_, hno, _⟩ |
    ⟨client2, images2, _, himg2, _, tr0, tr1, tr2, tr3, tp, htr, h0, h1, _, h2, h3, hperm, hend⟩
  · exact absurd himg (hno client images hnew)
  · rw [himg] at himg2
    cases himg2
    have hempty : images = [] → tr1 = [] ∧ tr2 = [] ∧
        ∀ ev ∈ tr3, ev.clientImage = none := by
      intro he
      subst he
      have e1 : tr1 = [] := by
        apply List.eq_nil_iff_forall_not_mem.mpr
        intro ev hev
        obtain ⟨_, _, _, _, hk⟩ := h1 ev hev
        simp [GoMap.keys] at hk
      have etp : tp = [] := by
        have := hperm
        simp only [workSet, List.filter_nil] at this
        exact List.Perm.eq_nil this
      subst etp
      have e2 : tr2 = [] := by
        apply List.eq_nil_iff_forall_not_mem.mpr
        intro ev hev
        obtain ⟨_, _, _, hk⟩ := h2 ev hev
        simp [GoMap.keys] at hk
      refine ⟨e1, e2, ?_⟩
      intro ev hev
      cases hc : ev.clientImage with
      | none => rfl
      | some img =>
        have := (h3 ev hev).2.2.2 img hc
        simp [GoMap.keys] at this
    have herr : (runPullCommand env origin s).err = none := by
      rcases hend with ⟨_, ⟨ev, hev, hfatal⟩, _⟩ | ⟨he, _⟩
      · rcases h with hok | he
        · have := hok ev (by rw [htr]; simp only [List.mem_append] at hev ⊢; tauto)
          rw [this] at hfatal
          cases hfatal
        · obtain ⟨e1, e2, _⟩ := hempty he
          rw [e1, e2] at hev
          cases hev
      · exact he
    refine ⟨herr, ?_, ?_⟩
    · intro args hargs
      have : (newPullCommand.RunE env args s).err = none := by
        simp only [newPullCommand.RunE, hargs, herr]
      exact ⟨this, by rw [this]; rfl⟩
    · intro he ev hev
      obtain ⟨e1, e2, e3⟩ := hempty he
      rw [htr, e1, e2] at hev
      simp only [List.append_nil, List.nil_append, List.mem_append] at hev
      rcases hev with hev | hev
      · rcases h0 _ hev with h | h <;> subst h <;> rfl
      · exact e3 ev hev

/-- The example run from the manifest, with "c" present locally: "c" is neither
probed nor transferred. -/
theorem present_image_never_probed_nor_pulled_witness :
    Event.existsOnHost "c" true none ∈ (runPullCommand exampleEnv "source" ["c"]).trace ∧
    ((∀ err, Event.existsAtRemote "c" err ∉ (runPullCommand exampleEnv "source" ["c"]).trace) ∧
     (∀ auth err, Event.pullAndWait "c" auth err ∉
        (runPullCommand exampleEnv "source" ["c"]).trace)) :=
  ⟨by decide, present_image_never_probed_nor_pulled exampleEnv "source" ["c"] "c" (by decide)⟩

/-- The example run whose probe of "bad" is refused: it returns an error and
transfers nothing. -/
theorem failed_check_or_probe_aborts_before_transfer_witness :
    Event.existsAtRemote "bad" (some "unauthorized") ∈
      (runPullCommand exampleBadEnv "source" ["c"]).trace ∧
    ((runPullCommand exampleBadEnv "source" ["c"]).err ≠ none ∧
     ∀ img auth err, Event.pullAndWait img auth err ∉
        (runPullCommand exampleBadEnv "source" ["c"]).trace) :=
  ⟨by decide,
    failed_check_or_probe_aborts_before_transfer exampleBadEnv "source" ["c"] exampleClient
      [("x", "auth-x"), ("bad", "auth-bad")] rfl rfl
      (Or.inl ⟨Event.existsAtRemote "bad" (some "unauthorized"), by decide, rfl⟩)⟩

/-- The example run over four listed images, one present and one whose
transfer fails: the three absent images are transferred, once each. -/
theorem transfers_are_exactly_the_work_set_witness :
    (runPullCommand exampleListEnv "source" ["c"]).trace.filterMap Event.pullArgs
      = [("x", "auth-x"), ("flaky", "auth-flaky"), ("y", "auth-y")] ∧
    List.Perm ((runPullCommand exampleListEnv "source" ["c"]).trace.filterMap Event.pullArgs)
      (workSet [("x", "auth-x"), ("flaky", "auth-flaky"), ("c", "auth-c"), ("y", "auth-y")]
        (runPullCommand exampleListEnv "source" ["c"]).trace) :=
  ⟨by decide,
    (transfers_are_exactly_the_work_set exampleListEnv "source" ["c"] exampleClient
      [("x", "auth-x"), ("flaky", "auth-flaky"), ("c", "auth-c"), ("y", "auth-y")] rfl rfl
      (by decide)).1⟩

/-- The example run in which the transfer of "flaky" fails returns no error. -/
theorem transfer_failures_are_not_fatal_witness :
    Event.pullAndWait "flaky" "auth-flaky" (some "timeout") ∈
      (runPullCommand exampleListEnv "source" ["c"]).trace ∧
    (runPullCommand exampleListEnv "source" ["c"]).err = none :=
  ⟨by decide,
    (transfer_failures_are_not_fatal exampleListEnv "source" ["c"] exampleClient
      [("x", "auth-x"), ("flaky", "auth-flaky"), ("c", "auth-c"), ("y", "auth-y")] rfl rfl
      (Or.inl (by decide))).1⟩

/-- The third loop does not read the manifest. -/
theorem pullLoop_no_read {σ : Type} (c : Client σ) (L : List (String × String)) :
    ∀ (s : σ), ∀ ev ∈ (runPullCommand.pullLoop c L s).2, ∀ p, ev ≠ Event.manifestGet p := by
  induction L with
  | nil => intro s ev h; simp [runPullCommand.pullLoop] at h
  | cons q rest ih =>
    obtain ⟨image, auth⟩ := q
    intro s ev hev p hp
    subst hp
    rcases h : c.PullAndWait s image auth with ⟨_ | e, s1⟩
    · simp only [runPullCommand.pullLoop, h, List.mem_cons] at hev
      rcases hev with hev | hev | hev
      · cases hev
      · cases hev
      · exact ih s1 _ hev p rfl
    · simp only [runPullCommand.pullLoop, h, List.mem_cons] at hev
      rcases hev with hev | hev | hev | hev
      · cases hev
      · cases hev
      · cases hev
      · exact ih s1 _ hev p rfl

/-- Lines 70 to 103 do not read the manifest. -/
theorem reconcile_no_read {σ : Type} (env : Env σ) (client : Client σ) (origin : String)
    (images : GoMap) (s : σ) :
    ∀ ev ∈ (runPullCommand.reconcile env client origin images s).trace,
      ∀ p, ev ≠ Event.manifestGet p := by
  obtain ⟨r1, tp, s1, tr1, hf, hcases⟩ := reconcile_cases env client origin images s
  have hA := filterLoop_trace client (images.range env.order1) s GoMap.empty
  rw [hf] at hA
  simp only at hA
  have h1 : ∀ ev ∈ tr1, ∀ p, ev ≠ Event.manifestGet p := by
    intro ev hev p hp
    obtain ⟨_, _, _, h, _⟩ := hA ev hev
    rw [hp] at h
    cases h
  have h0 : ∀ p, findingLine origin ≠ Event.manifestGet p := by
    intro p hp
    simp [findingLine] at hp
  rcases hcases with ⟨e, _, _, _, htr⟩ | ⟨_, r2, s2, tr2, hv, hcases2⟩
  · intro ev hev p
    rw [htr] at hev
    simp only [List.mem_cons] at hev
    rcases hev with hev | hev
    · exact hev ▸ h0 p
    · exact h1 ev hev p
  · have hV := validateLoop_trace client (tp.range env.order2) s1
    rw [hv] at hV
    simp only at hV
    have h2 : ∀ ev ∈ tr2, ∀ p, ev ≠ Event.manifestGet p := by
      intro ev hev p hp
      obtain ⟨_, _, h, _⟩ := hV ev hev
      rw [hp] at h
      cases h
    rcases hcases2 with ⟨e, _, _, _, htr⟩ | ⟨_, _, _, htr⟩
    · intro ev hev p
      rw [htr] at hev
      simp only [List.mem_cons, List.mem_append] at hev
      rcases hev with hev | hev | hev
      · exact hev ▸ h0 p
      · exact h1 ev hev p
      · exact h2 ev hev p
    · intro ev hev p
      rw [htr] at hev
      simp only [List.mem_cons, List.mem_append, List.not_mem_nil, or_false] at hev
      rcases hev with hev | ((hev | hev) | hev) | hev
      · exact hev ▸ h0 p
      · exact h1 ev hev p
      · exact h2 ev hev p
      · exact pullLoop_no_read client _ s2 ev hev p
      · subst hev
        intro hp
        simp [pulledLine] at hp

/-- The client calls of lines 70 to 103 are on images of the Desired State. -/
theorem reconcile_trace_client {σ : Type} (env : Env σ) (client : Client σ) (origin : String)
    (images : GoMap) (s : σ) (hnd : images.keys.Nodup) :
    ∀ ev ∈ (runPullCommand.reconcile env client origin images s).trace,
      ∀ img, ev.clientImage = some img → img ∈ images.keys := by
  obtain ⟨tr1, tr2, tr3, tp, htr, h1, _, h2, h3, hperm, _⟩ :=
    reconcile_shape env client origin images s hnd
  have htp : ∀ img, img ∈ GoMap.keys tp → img ∈ images.keys := by
    intro img hk
    have hk2 : img ∈ GoMap.keys (workSet images tr1) := (hperm.map Prod.fst).mem_iff.mp hk
    simp only [GoMap.keys, workSet, List.mem_map, List.mem_filter] at hk2 ⊢
    obtain ⟨p, ⟨hp, _⟩, rfl⟩ := hk2
    exact ⟨p, hp, rfl⟩
  intro ev hev
  rw [htr] at hev
  simp only [List.mem_cons, List.mem_append] at hev
  rcases hev with hev | (hev | hev) | hev
  · subst hev
    intro img h
    simp [findingLine, Event.clientImage] at h
  · obtain ⟨img, f, err, rfl, hk⟩ := h1 ev hev
    intro img' h
    simp only [Event.clientImage, Option.some.injEq] at h
    exact h ▸ hk
  · obtain ⟨img, err, rfl, hk⟩ := h2 ev hev
    intro img' h
    simp only [Event.clientImage, Option.some.injEq] at h
    exact h ▸ htp img hk
  · exact fun img h => htp img ((h3 ev hev).2.2.2 img h)

/-- The checks of the first loop, when it returns no error, are on the keys of
the list, each once, in order. -/
theorem filterLoop_hostArgs {σ : Type} (c : Client σ) (L : List (String × String)) :
    ∀ (s : σ) (acc : GoMap), (runPullCommand.filterLoop c L s acc).1 = none →
      (runPullCommand.filterLoop c L s acc).2.2.2.filterMap Event.hostArg = L.map Prod.fst := by
  induction L with
  | nil => intro s acc _; rfl
  | cons p rest ih =>
    obtain ⟨image, auth⟩ := p
    intro s acc hok
    rcases h : c.ImageExistsOnHost s image with ⟨⟨found, _ | e⟩, s1⟩
    · rw [filterLoop_cons_ok c image auth rest s s1 acc found h] at hok ⊢
      simp only at hok
      simp only [List.filterMap_cons, Event.hostArg, List.map_cons]
      rw [ih s1 _ hok]
    · rw [filterLoop_cons_err c image auth rest s s1 acc found e h] at hok
      simp at hok

/-- The answer of a probe of the second loop is the answer of the client for
the image reference, in the state the loop had reached. -/
theorem validateLoop_answers {σ : Type} (c : Client σ) (L : List (String × String)) :
    ∀ (s : σ) (img : String) (err : Option String),
      Event.existsAtRemote img err ∈ (runPullCommand.validateLoop c L s).2.2 →
      ∃ s', err = (c.ImageExistsAtRemote s' img).1 := by
  induction L with
  | nil => intro s img err h; simp [runPullCommand.validateLoop] at h
  | cons p rest ih =>
    obtain ⟨image, auth⟩ := p
    intro s img err hm
    rcases h : c.ImageExistsAtRemote s image with ⟨_ | e, s1⟩
    · rw [validateLoop_cons_ok c image auth rest s s1 h] at hm
      simp only [List.mem_cons] at hm
      rcases hm with hm | hm
      · injection hm with a b
        subst a b
        exact ⟨s, by rw [h]⟩
      · exact ih s1 img err hm
    · rw [validateLoop_cons_err c image auth rest s s1 e h] at hm
      simp only [List.mem_singleton] at hm
      injection hm with a b
      subst a b
      exact ⟨s, by rw [h]⟩

/-- When lines 70 to 103 return no error, their existence checks are, up to
order, the keys of the Desired State, one check each. -/
theorem reconcile_hostArgs {σ : Type} (env : Env σ) (client : Client σ) (origin : String)
    (images : GoMap) (s : σ)
    (herr : (runPullCommand.reconcile env client origin images s).err = none) :
    List.Perm ((runPullCommand.reconcile env client origin images s).trace.filterMap
      Event.hostArg) images.keys := by
  obtain ⟨r1, tp, s1, tr1, hf, hcases⟩ := reconcile_cases env client origin images s
  rcases hcases with ⟨e, _, herr2, _⟩ | ⟨hr1, r2, s2, tr2, hv, hcases2⟩
  · rw [herr] at herr2; cases herr2
  · subst hr1
    rcases hcases2 with ⟨e, _, herr2, _⟩ | ⟨_, _, _, htr⟩
    · rw [herr] at herr2; cases herr2
    · have h1 := filterLoop_hostArgs client (images.range env.order1) s GoMap.empty
      rw [hf] at h1
      have h2 : tr2.filterMap Event.hostArg = [] := by
        have hV := validateLoop_trace client (tp.range env.order2) s1
        rw [hv] at hV
        rw [List.filterMap_eq_nil_iff]
        intro ev hev
        obtain ⟨_, _, h, _⟩ := hV ev hev
        subst h; rfl
      have h3 : (runPullCommand.pullLoop client (tp.range env.order3) s2).2.filterMap
          Event.hostArg = [] := by
        rw [List.filterMap_eq_nil_iff]
        intro ev hev
        exact (pullLoop_trace client _ s2 ev hev).2.1
      rw [htr]
      simp only [List.filterMap_cons, findingLine, Event.hostArg, List.filterMap_append, h1 rfl,
        h2, h3, pulledLine, List.filterMap_nil, List.append_nil]
      exact (GoMap.range_perm env.order1 images).map Prod.fst

/-- The answer of every probe of lines 70 to 103 is the answer of the client
for the image reference in some state. -/
theorem reconcile_probe_answers {σ : Type} (env : Env σ) (client : Client σ) (origin : String)
    (images : GoMap) (s : σ) (img : String) (err : Option String)
    (hm : Event.existsAtRemote img err ∈
      (runPullCommand.reconcile env client origin images s).trace) :
    ∃ s', err = (client.ImageExistsAtRemote s' img).1 := by
  obtain ⟨r1, tp, s1, tr1, hf, hcases⟩ := reconcile_cases env client origin images s
  have hA := filterLoop_trace client (images.range env.order1) s GoMap.empty
  rw [hf] at hA
  simp only at hA
  have h1 : Event.existsAtRemote img err ∉ tr1 := by
    intro h
    obtain ⟨_, _, _, he, _⟩ := hA _ h
    cases he
  have h0 : Event.existsAtRemote img err ≠ findingLine origin := by
    simp [findingLine]
  rcases hcases with ⟨e, _, _, _, htr⟩ | ⟨_, r2, s2, tr2, hv, hcases2⟩
  · rw [htr] at hm
    simp only [List.mem_cons] at hm
    rcases hm with hm | hm
    · exact absurd hm h0
    · exact absurd hm h1
  · have hV := validateLoop_answers client (tp.range env.order2) s1 img err
    rw [hv] at hV
    simp only at hV
    rcases hcases2 with ⟨e, _, _, _, htr⟩ | ⟨_, _, _, htr⟩
    · rw [htr] at hm
      simp only [List.mem_cons, List.mem_append] at hm
      rcases hm with hm | hm | hm
      · exact absurd hm h0
      · exact absurd hm h1
      · exact hV hm
    · rw [htr] at hm
      simp only [List.mem_cons, List.mem_append, List.not_mem_nil, or_false] at hm
      rcases hm with hm | ((hm | hm) | hm) | hm
      · exact absurd hm h0
      · exact absurd hm h1
      · exact hV hm
      · have := (pullLoop_trace client _ s2 _ hm).2.2.1
        simp [Event.probeArg] at this
      · simp [pulledLine] at hm

/-- C5: when the explicit image list is not empty, the Desired State of the
run is the result of getImagesFromCommandLine on it: the run fails with that
builder's error without any event, or is lines 70 to 103 run on that builder's
map, and when it returns no error its existence checks are, one each, exactly
the images of the list.  The manifest is not read (no call of manifest.Get,
and the run is the same whatever the manifest and its path are), and every
existence check, probe and transfer is on an image of the list.  When the list
is empty, the Desired State is the result of getImagesFromManifest for the
given origin, and the run is the read of the manifest followed by lines 70 to
103 run on that builder's map. -/
theorem explicit_list_overrides_manifest {σ : Type} (env : Env σ) (origin : String) (s : σ) :
    (env.imagesFlag ≠ [] →
      runPullCommand.images env origin = (getImagesFromCommandLine env env.imagesFlag, []) ∧
      (∀ path, Event.manifestGet path ∉ (runPullCommand env origin s).trace) ∧
      (∀ ev ∈ (runPullCommand env origin s).trace,
        ∀ img, ev.clientImage = some img → img ∈ env.imagesFlag) ∧
      (∀ (get : String → Except String Manifest) (path : String),
        runPullCommand ⟨path, env.imagesFlag, env.dockerNew, get, env.registryHost,
          env.getEncodedAuthForHost, env.unicodeFold, env.order1, env.order2, env.order3⟩
          origin s = runPullCommand env origin s) ∧
      (∀ client, env.dockerNew = .ok client →
        (∀ e, getImagesFromCommandLine env env.imagesFlag = .error e →
          (runPullCommand env origin s).err = some ("get images: " ++ e) ∧
          (runPullCommand env origin s).trace = []) ∧
        (∀ images, getImagesFromCommandLine env env.imagesFlag = .ok images →
          (runPullCommand env origin s).err
            = (runPullCommand.reconcile env client origin images s).err ∧
          (runPullCommand env origin s).state
            = (runPullCommand.reconcile env client origin images s).state ∧
          (runPullCommand env origin s).trace
            = (runPullCommand.reconcile env client origin images s).trace ∧
          ((runPullCommand env origin s).err = none →
            List.Perm ((runPullCommand env origin s).trace.filterMap Event.hostArg)
              images.keys ∧
            ∀ k, k ∈ (runPullCommand env origin s).trace.filterMap Event.hostArg ↔
              k ∈ env.imagesFlag)))) ∧
    (env.imagesFlag = [] →
      runPullCommand.images env origin = getImagesFromManifest env env.manifestPath origin ∧
      (∀ client, env.dockerNew = .ok client →
        ∀ images, (getImagesFromManifest env env.manifestPath origin).1 = .ok images →
          (runPullCommand env origin s).err
            = (runPullCommand.reconcile env client origin images s).err ∧
          (runPullCommand env origin s).state
            = (runPullCommand.reconcile env client origin images s).state ∧
          (runPullCommand env origin s).trace
            = Event.manifestGet env.manifestPath ::
                (runPullCommand.reconcile env client origin images s).trace ∧
          ((runPullCommand env origin s).err = none →
            List.Perm ((runPullCommand env origin s).trace.filterMap Event.hostArg)
              images.keys))) := by
  constructor
  · intro hne
    have hlen : env.imagesFlag.length > 0 := List.length_pos.mpr hne
    have himages : runPullCommand.images env origin
        = (getImagesFromCommandLine env env.imagesFlag, []) := by
      simp only [runPullCommand.images, hlen, if_true]
    refine ⟨himages, ?_, ?_, ?_, ?_⟩
    · intro path hm
      rcases run_cases env origin s with ⟨_, _, _, htr, _⟩ | ⟨client, _, hrest⟩
      · rw [htr] at hm; cases hm
      · rcases hrest with ⟨_, _, _, _, htr⟩ | ⟨images, _, _, _, htr⟩
        · rw [htr, himages] at hm; cases hm
        · rw [htr, himages] at hm
          simp only [List.nil_append] at hm
          exact reconcile_no_read env client origin images s _ hm path rfl
    · intro ev hev img himg
      rcases run_cases env origin s with ⟨_, _, _, htr, _⟩ | ⟨client, _, hrest⟩
      · rw [htr] at hev; cases hev
      · rcases hrest with ⟨_, _, _, _, htr⟩ | ⟨images, hok, _, _, htr⟩
        · rw [htr, himages] at hev; cases hev
        · rw [htr, himages] at hev
          simp only [List.nil_append] at hev
          have hnd := images_nodup env origin images hok
          have hk := reconcile_trace_client env client origin images s hnd ev hev img himg
          rw [himages] at hok
          simp only at hok
          have h2 := commandLine_insertAll env env.imagesFlag
          rw [hok] at h2
          have h3 := (insertAll_keys _ _ _ h2.symm img).mp hk
          rcases h3 with h3 | h3
          · simp [GoMap.empty, GoMap.keys] at h3
          · simpa [commandLineEntries, List.map_map] using h3
    · intro get path
      simp only [runPullCommand, runPullCommand.images, hlen, if_true, getImagesFromCommandLine,
        runPullCommand.reconcile]
    · intro client hnew
      constructor
      · intro e he
        have hrun : runPullCommand env origin s = ⟨some ("get images: " ++ e), s, []⟩ := by
          simp only [runPullCommand, hnew, himages, he]
        rw [hrun]
        exact ⟨rfl, rfl⟩
      · intro images hok
        have himg : (runPullCommand.images env origin).1 = .ok images := by
          rw [himages]; exact hok
        obtain ⟨e1, e2, e3⟩ := run_err_eq env origin s client images hnew himg
        rw [himages] at e3
        simp only [List.nil_append] at e3
        refine ⟨e1, e2, e3, ?_⟩
        intro hnone
        have hP : List.Perm ((runPullCommand env origin s).trace.filterMap Event.hostArg)
            images.keys := by
          rw [e3]
          exact reconcile_hostArgs env client origin images s (by rw [← e1]; exact hnone)
        refine ⟨hP, ?_⟩
        intro k
        rw [hP.mem_iff]
        have h2 := commandLine_insertAll env env.imagesFlag
        rw [hok] at h2
        rw [insertAll_keys _ _ _ h2.symm k]
        simp [GoMap.empty, GoMap.keys, commandLineEntries, List.map_map]
  · intro he
    have himages : runPullCommand.images env origin
        = getImagesFromManifest env env.manifestPath origin := by
      simp [runPullCommand.images, he]
    refine ⟨himages, ?_⟩
    intro client hnew images hok
    have himg : (runPullCommand.images env origin).1 = .ok images := by
      rw [himages]; exact hok
    obtain ⟨e1, e2, e3⟩ := run_err_eq env origin s client images hnew himg
    have htr0 : (getImagesFromManifest env env.manifestPath origin).2
        = [Event.manifestGet env.manifestPath] := by
      unfold getImagesFromManifest
      split <;> rfl
    rw [himages, htr0] at e3
    simp only [List.singleton_append] at e3
    refine ⟨e1, e2, e3, ?_⟩
    intro hnone
    rw [e3]
    simp only [List.filterMap_cons, Event.hostArg]
    exact reconcile_hostArgs env client origin images s (by rw [← e1]; exact hnone)

/-- The example run with an explicit list of four images is lines 70 to 103
run on the map built from the list: it checks the four listed images, reads no
manifest and calls the client on listed images only. -/
theorem explicit_list_overrides_manifest_witness :
    exampleListEnv.imagesFlag ≠ [] ∧
    (runPullCommand exampleListEnv "source" ["c"]).trace.filterMap Event.hostArg
      = ["x", "flaky", "c", "y"] ∧
    (runPullCommand exampleListEnv "source" ["c"]).trace
      = (runPullCommand.reconcile exampleListEnv exampleClient "source"
          [("x", "auth-x"), ("flaky", "auth-flaky"), ("c", "auth-c"), ("y", "auth-y")]
          ["c"]).trace ∧
    (∀ k, k ∈ (runPullCommand exampleListEnv "source" ["c"]).trace.filterMap Event.hostArg ↔
      k ∈ exampleListEnv.imagesFlag) ∧
    (∀ path, Event.manifestGet path ∉ (runPullCommand exampleListEnv "source" ["c"]).trace) ∧
    (∀ ev ∈ (runPullCommand exampleListEnv "source" ["c"]).trace,
      ∀ img, ev.clientImage = some img → img ∈ exampleListEnv.imagesFlag) :=
  ⟨by decide, by decide,
    (((explicit_list_overrides_manifest exampleListEnv "source" ["c"]).1
      (by decide)).2.2.2.2 exampleClient rfl).2
      [("x", "auth-x"), ("flaky", "auth-flaky"), ("c", "auth-c"), ("y", "auth-y")] rfl
      |>.2.2.1,
    ((((explicit_list_overrides_manifest exampleListEnv "source" ["c"]).1
      (by decide)).2.2.2.2 exampleClient rfl).2
      [("x", "auth-x"), ("flaky", "auth-flaky"), ("c", "auth-c"), ("y", "auth-y")] rfl
      |>.2.2.2 (by decide)).2,
    ((explicit_list_overrides_manifest exampleListEnv "source" ["c"]).1 (by decide)).2.1,
    ((explicit_list_overrides_manifest exampleListEnv "source" ["c"]).1 (by decide)).2.2.1⟩

/-- C6: if resolving the credential fails for an entry (for the host of an
image of the explicit list when that list is in use, for the side of a
manifest entry that the origin selects when the manifest is in use), the
builder returns an error and no map, and runPullCommand returns an error
without any local existence check, remote-validation probe or transfer. -/
theorem auth_resolution_failure_is_fatal {σ : Type} (env : Env σ) (origin : String) (s : σ)
    (h : (env.imagesFlag ≠ [] ∧ ∃ image ∈ env.imagesFlag, ∃ e,
            env.getEncodedAuthForHost (env.registryHost image) = .error e) ∨
         (env.imagesFlag = [] ∧ ∃ mf, env.manifestGet env.manifestPath = .ok mf ∧
            ∃ source ∈ mf.Sources, ∃ e,
              (EqualFold env.unicodeFold origin "target" = true ∧
                source.Target.EncodedAuth = .error e) ∨
              (EqualFold env.unicodeFold origin "target" = false ∧
                source.EncodedAuth = .error e))) :
    (∃ e, (runPullCommand.images env origin).1 = .error e) ∧
    (runPullCommand env origin s).err ≠ none ∧
    ∀ ev ∈ (runPullCommand env origin s).trace, ev.clientImage = none := by
  have himages : ∃ e, (runPullCommand.images env origin).1 = .error e := by
    rcases h with ⟨hne, image, hmem, e, he⟩ | ⟨hnil, mf, hget, source, hmem, e, he⟩
    · have hlen : env.imagesFlag.length > 0 := List.length_pos.mpr hne
      have h1 : runPullCommand.images env origin
          = (getImagesFromCommandLine env env.imagesFlag, []) := by
        simp only [runPullCommand.images, hlen, if_true]
      rw [h1]
      apply (toOption_eq_none _).mp
      rw [commandLine_insertAll]
      apply insertAll_none
      exact ⟨(image, env.getEncodedAuthForHost (env.registryHost image)),
        List.mem_map_of_mem _ hmem, e, he⟩
    · have h1 : runPullCommand.images env origin
          = getImagesFromManifest env env.manifestPath origin := by
        simp [runPullCommand.images, hnil]
      rw [h1]
      apply (toOption_eq_none _).mp
      rw [manifest_insertAll env env.manifestPath origin mf hget]
      apply insertAll_none
      refine ⟨getImagesFromManifest.pick env.unicodeFold origin source,
        List.mem_map_of_mem _ hmem, e, ?_⟩
      rcases he with ⟨hf, he⟩ | ⟨hf, he⟩
      · simp [getImagesFromManifest.pick, hf, he]
      · simp [getImagesFromManifest.pick, hf, he]
  refine ⟨himages, ?_⟩
  obtain ⟨e, he⟩ := himages
  rcases run_cases env origin s with ⟨_, _, herr, htr, _⟩ | ⟨client, _, hrest⟩
  · exact ⟨herr, by simp [htr]⟩
  · rcases hrest with ⟨_, _, herr, _, htr⟩ | ⟨images, hok, _⟩
    · refine ⟨herr, ?_⟩
      intro ev hev
      rw [htr] at hev
      rw [images_trace env origin ev hev]
      rfl
    · rw [he] at hok
      cases hok

/-- The example run whose listed image "nohost" has no credentials: the builder
fails, the run fails and the client is not called. -/
theorem auth_resolution_failure_is_fatal_witness :
    (∃ e, getImagesFromCommandLine exampleNoAuthEnv ["x", "nohost"] = .error e) ∧
    (runPullCommand exampleNoAuthEnv "source" ["c"]).err ≠ none ∧
    ∀ ev ∈ (runPullCommand exampleNoAuthEnv "source" ["c"]).trace, ev.clientImage = none :=
  auth_resolution_failure_is_fatal exampleNoAuthEnv "source" ["c"]
    (Or.inl ⟨by decide, "nohost", by decide, "no credentials", rfl⟩)

/-- The keys after `m[k] = v`. -/
theorem GoMap.keys_set (m : GoMap) (k v : String) :
    (m.set k v).keys = if k ∈ m.keys then m.keys else m.keys ++ [k] := by
  by_cases h : k ∈ m.keys
  · rw [if_pos h, GoMap.keys_set_of_mem m k v h]
  · rw [if_neg h, GoMap.set_of_not_mem m k v h]
    simp [GoMap.keys]

/-- The keys met by `range` depend on the keys of the map only. -/
theorem GoMap.range_keys (o : Order) (m m2 : GoMap) (h : m.keys = m2.keys) :
    (m.range o).map Prod.fst = (m2.range o).map Prod.fst := by
  have hlen : m.length = m2.length := by
    have := congrArg List.length h
    simpa [GoMap.keys] using this
  have key : ∀ (x : GoMap), (x.range o).map Prod.fst
      = (o.idx x.length).filterMap (fun i => (x.keys)[i]?) := by
    intro x
    simp only [GoMap.range, GoMap.keys, List.map_filterMap, List.getElem?_map]
  rw [key m, key m2, hlen, h]

/-- The first loop reads the image references only: over two lists with the
same keys it makes the same calls, ends in the same state with the same
error, and returns maps with the same keys. -/
theorem filterLoop_keys {σ : Type} (c : Client σ) (L : List (String × String)) :
    ∀ (L2 : List (String × String)) (s : σ) (acc acc2 : GoMap),
      L.map Prod.fst = L2.map Prod.fst → acc.keys = acc2.keys →
      (runPullCommand.filterLoop c L s acc).1 = (runPullCommand.filterLoop c L2 s acc2).1 ∧
      GoMap.keys (runPullCommand.filterLoop c L s acc).2.1
        = GoMap.keys (runPullCommand.filterLoop c L2 s acc2).2.1 ∧
      (runPullCommand.filterLoop c L s acc).2.2
        = (runPullCommand.filterLoop c L2 s acc2).2.2 := by
  induction L with
  | nil =>
    intro L2 s acc acc2 h hacc
    cases L2 with
    | nil => exact ⟨rfl, hacc, rfl⟩
    | cons q r => simp at h
  | cons p rest ih =>
    obtain ⟨image, auth⟩ := p
    intro L2 s acc acc2 h hacc
    cases L2 with
    | nil => simp at h
    | cons q r =>
      obtain ⟨image2, auth2⟩ := q
      simp only [List.map_cons, List.cons.injEq] at h
      obtain ⟨h1, h2⟩ := h
      subst h1
      rcases hc : c.ImageExistsOnHost s image with ⟨⟨found, _ | e⟩, s1⟩
      · rw [filterLoop_cons_ok c image auth rest s s1 acc found hc,
          filterLoop_cons_ok c image auth2 r s s1 acc2 found hc]
        have hacc' : GoMap.keys (if !found then acc.set image auth else acc)
            = GoMap.keys (if !found then acc2.set image auth2 else acc2) := by
          cases found
          · simp only [Bool.not_false, if_true]
            rw [GoMap.keys_set, GoMap.keys_set, hacc]
          · simpa using hacc
        obtain ⟨a, b, d⟩ := ih r s1 _ _ h2 hacc'
        refine ⟨a, b, ?_⟩
        simp only [Prod.mk.injEq]
        exact ⟨congrArg Prod.fst d, by rw [congrArg Prod.snd d]⟩
      · rw [filterLoop_cons_err c image auth rest s s1 acc found e hc,
          filterLoop_cons_err c image auth2 r s s1 acc2 found e hc]
        exact ⟨rfl, hacc, rfl⟩

/-- Lines 70 to 103 over two Desired States with the same image references,
under the same iteration orders of the first two loops, return the same error
and make the same probes with the same answers. -/
theorem reconcile_keys_only {σ : Type} (env env2 : Env σ) (client : Client σ)
    (origin : String) (images images2 : GoMap) (s : σ)
    (ho1 : env2.order1 = env.order1) (ho2 : env2.order2 = env.order2)
    (hkeys : images.keys = images2.keys) :
    (runPullCommand.reconcile env client origin images s).err
      = (runPullCommand.reconcile env2 client origin images2 s).err ∧
    probeCalls (runPullCommand.reconcile env client origin images s).trace
      = probeCalls (runPullCommand.reconcile env2 client origin images2 s).trace := by
  obtain ⟨r1, tp, s1, tr1, hf, hcases⟩ := reconcile_cases env client origin images s
  obtain ⟨r1', tp', s1', tr1', hf', hcases'⟩ := reconcile_cases env2 client origin images2 s
  rw [ho1] at hf'
  rw [ho2] at hcases'
  obtain ⟨ha, hb, hd⟩ := filterLoop_keys client (images.range env.order1)
    (images2.range env.order1) s GoMap.empty GoMap.empty
    (GoMap.range_keys env.order1 images images2 hkeys) rfl
  rw [hf, hf'] at ha hb hd
  simp only [Prod.mk.injEq] at ha hb hd
  obtain ⟨hs, ht⟩ := hd
  subst ha hs ht
  have hpc1 : probeCalls tr1 = [] := by
    have hA := filterLoop_trace client (images.range env.order1) s GoMap.empty
    rw [hf] at hA
    simp only [probeCalls, List.filter_eq_nil_iff]
    intro ev hev
    obtain ⟨_, _, _, h, _⟩ := hA ev hev
    subst h
    simp [Event.probeArg]
  have hfl : probeCalls [findingLine origin] = [] := by
    simp [probeCalls, findingLine, Event.probeArg]
  have happ : ∀ a b : List Event, probeCalls (a ++ b) = probeCalls a ++ probeCalls b := by
    intro a b; simp [probeCalls]
  have hcons : ∀ (rest : List Event), probeCalls (findingLine origin :: rest)
      = probeCalls rest := by
    intro rest
    have := happ [findingLine origin] rest
    rw [hfl] at this
    simpa using this
  rcases hcases with ⟨e, hr1, herr, _, htr⟩ | ⟨hr1, r2, s2, tr2, hv, hcases2⟩
  · subst hr1
    rcases hcases' with ⟨e', hr1', herr', _, htr'⟩ | ⟨hr1', _⟩
    · cases hr1'
      rw [herr, herr', htr, htr']
      exact ⟨rfl, rfl⟩
    · cases hr1'
  · subst hr1
    rcases hcases' with ⟨e', hr1', _⟩ | ⟨_, r2', s2', tr2', hv', hcases2'⟩
    · cases hr1'
    · have hveq := validateLoop_keys client (tp.range env.order2) (tp'.range env.order2) s1
        (GoMap.range_keys env.order2 tp tp' hb)
      rw [hv, hv'] at hveq
      simp only [Prod.mk.injEq] at hveq
      obtain ⟨hr, hs2, ht2⟩ := hveq
      subst hr hs2 ht2
      have hpull : ∀ (L : List (String × String)) (s' : σ),
          probeCalls (runPullCommand.pullLoop client L s').2 = [] := by
        intro L s'
        simp only [probeCalls, List.filter_eq_nil_iff]
        intro ev hev
        simp [(pullLoop_trace client L s' ev hev).2.2.1]
      rcases hcases2 with ⟨e, hr2, herr, _, htr⟩ | ⟨hr2, herr, _, htr⟩
      · subst hr2
        rcases hcases2' with ⟨e', hr2', herr', _, htr'⟩ | ⟨hr2', _⟩
        · cases hr2'
          rw [herr, herr', htr, htr']
          exact ⟨rfl, rfl⟩
        · cases hr2'
      · subst hr2
        rcases hcases2' with ⟨e', hr2', _⟩ | ⟨_, herr', _, htr'⟩
        · cases hr2'
        · rw [herr, herr', htr, htr']
          refine ⟨rfl, ?_⟩
          simp only [hcons, List.append_assoc, happ, hpull]

/-- Building the Desired State makes no probe. -/
theorem images_probeCalls {σ : Type} (env : Env σ) (origin : String) :
    probeCalls (runPullCommand.images env origin).2 = [] := by
  simp only [probeCalls, List.filter_eq_nil_iff]
  intro ev hev
  rw [images_trace env origin ev hev]
  simp [Event.probeArg]

/-- C7, as the code has it: the remote-validation probe is made on the image
reference alone, and the Encoded Authorization of the Desired State is not
passed to it.  Whatever the iteration orders, every probe of a run is on an
image of its Work Set and its answer is the answer of the client for that
image reference (in the state reached); when the run returns no error its
probes are, up to order, the images of its Work Set, one probe each.  Two runs
from the same state with the same client, under the same iteration orders of
the first two loops, whose Desired States have the same image references and
any credentials, make the same probe calls with the same answers and return
the same error. -/
theorem probe_is_made_on_the_image_reference_alone {σ : Type} (env env2 : Env σ)
    (origin : String) (s : σ) (client : Client σ) (images images2 : GoMap)
    (hnew : env.dockerNew = .ok client) (hnew2 : env2.dockerNew = .ok client)
    (ho1 : env2.order1 = env.order1) (ho2 : env2.order2 = env.order2)
    (himg : (runPullCommand.images env origin).1 = .ok images)
    (himg2 : (runPullCommand.images env2 origin).1 = .ok images2)
    (hkeys : images.keys = images2.keys) :
    probeCalls (runPullCommand env origin s).trace
      = probeCalls (runPullCommand env2 origin s).trace ∧
    (runPullCommand env origin s).err = (runPullCommand env2 origin s).err ∧
    (∀ img err, Event.existsAtRemote img err ∈ (runPullCommand env origin s).trace →
      img ∈ GoMap.keys (workSet images (runPullCommand env origin s).trace) ∧
      ∃ s', err = (client.ImageExistsAtRemote s' img).1) ∧
    ((runPullCommand env origin s).err = none →
      List.Perm ((runPullCommand env origin s).trace.filterMap Event.probeArg)
        (GoMap.keys (workSet images (runPullCommand env origin s).trace))) := by
  obtain ⟨e1, _, t1⟩ := run_err_eq env origin s client images hnew himg
  obtain ⟨e2, _, t2⟩ := run_err_eq env2 origin s client images2 hnew2 himg2
  obtain ⟨hk1, hk2⟩ := reconcile_keys_only env env2 client origin images images2 s ho1 ho2 hkeys
  have happ : ∀ a b : List Event, probeCalls (a ++ b) = probeCalls a ++ probeCalls b := by
    intro a b; simp [probeCalls]
  refine ⟨?_, ?_, ?_, ?_⟩
  · rw [t1, t2, happ, happ, images_probeCalls, images_probeCalls, hk2]
  · rw [e1, e2, hk1]
  · intro img err hm
    constructor
    · rcases run_shape env origin s with ⟨_, _, hall⟩ |
        ⟨_, im, _, him, _, tr0, tr1, tr2, tr3, tp, htr, h0, h1, _, h2, h3, hperm, _⟩
      · have := hall _ hm
        cases this
      · rw [himg] at him
        cases him
        rw [htr] at hm ⊢
        rw [(shape_pulls_workSet images h0 h1 h2 h3).2]
        exact (hperm.map Prod.fst).mem_iff.mp (mem_shape_probe h0 h1 h2 h3 hm)
    · rw [t1] at hm
      simp only [List.mem_append] at hm
      rcases hm with hm | hm
      · have := images_trace env origin _ hm
        cases this
      · exact reconcile_probe_answers env client origin images s img err hm
  · intro hnone
    rcases run_shape env origin s with ⟨he, _⟩ |
      ⟨_, im, _, him, _, tr0, tr1, tr2, tr3, tp, htr, h0, h1, _, h2, h3, hperm, hend⟩
    · exact absurd hnone he
    · rw [himg] at him
      cases him
      rcases hend with ⟨he, _⟩ | ⟨_, _, _, hprobe⟩
      · exact absurd hnone he
      · rw [htr, (shape_pulls_workSet images h0 h1 h2 h3).2]
        have e0 : tr0.filterMap Event.probeArg = [] := by
          rw [List.filterMap_eq_nil_iff]
          intro ev hev
          rcases h0 _ hev with h | h <;> subst h <;> rfl
        have e1' : tr1.filterMap Event.probeArg = [] := by
          rw [List.filterMap_eq_nil_iff]
          intro ev hev
          obtain ⟨_, _, _, h, _⟩ := h1 _ hev
          subst h; rfl
        have e3 : tr3.filterMap Event.probeArg = [] := by
          rw [List.filterMap_eq_nil_iff]
          intro ev hev
          exact (h3 ev hev).2.2.1
        simp only [List.filterMap_append, e0, e1', e3, List.nil_append, List.append_nil]
        exact hprobe.trans (hperm.map Prod.fst)

/-- The two example runs whose manifests differ in the credential of "a" make
the same probes, on the Work Set image "a" alone. -/
theorem probe_is_made_on_the_image_reference_alone_witness :
    probeCalls (runPullCommand exampleEnv "source" ["c"]).trace
      = probeCalls (runPullCommand exampleRotatedEnv "source" ["c"]).trace ∧
    (runPullCommand exampleEnv "source" ["c"]).err
      = (runPullCommand exampleRotatedEnv "source" ["c"]).err ∧
    (∀ img err, Event.existsAtRemote img err ∈ (runPullCommand exampleEnv "source" ["c"]).trace →
      img ∈ GoMap.keys (workSet [("a", "second"), ("c", "third")]
        (runPullCommand exampleEnv "source" ["c"]).trace) ∧
      ∃ s', err = (exampleClient.ImageExistsAtRemote s' img).1) ∧
    ((runPullCommand exampleEnv "source" ["c"]).err = none →
      List.Perm ((runPullCommand exampleEnv "source" ["c"]).trace.filterMap Event.probeArg)
        (GoMap.keys (workSet [("a", "second"), ("c", "third")]
          (runPullCommand exampleEnv "source" ["c"]).trace))) :=
  probe_is_made_on_the_image_reference_alone exampleEnv exampleRotatedEnv "source" ["c"]
    exampleClient [("a", "second"), ("c", "third")] [("a", "rotated"), ("c", "third")]
    rfl rfl rfl rfl rfl rfl rfl

/-- C7, as stated, fails: the two example runs differ only in the credential
of the image "a", which is in the Work Set of both, and the probe of "a" is
passed the same thing in both, the image reference; the credentials reach the
transfer calls only. -/
theorem probe_credential_counterexample :
    (runPullCommand.images exampleEnv "source").1.toOption
      = some [("a", "second"), ("c", "third")] ∧
    (runPullCommand.images exampleRotatedEnv "source").1.toOption
      = some [("a", "rotated"), ("c", "third")] ∧
    Event.existsOnHost "a" false none ∈ (runPullCommand exampleEnv "source" ["c"]).trace ∧
    Event.existsOnHost "a" false none ∈ (runPullCommand exampleRotatedEnv "source" ["c"]).trace ∧
    probeCalls (runPullCommand exampleEnv "source" ["c"]).trace
      = [Event.existsAtRemote "a" none] ∧
    probeCalls (runPullCommand exampleRotatedEnv "source" ["c"]).trace
      = [Event.existsAtRemote "a" none] ∧
    (runPullCommand exampleEnv "source" ["c"]).trace.filterMap Event.pullArgs
      = [("a", "second")] ∧
    (runPullCommand exampleRotatedEnv "source" ["c"]).trace.filterMap Event.pullArgs
      = [("a", "rotated")] := by
  decide

/-! ## Idempotence -/
/-- The example client meets the condition `Quiet`. -/
theorem exampleClient_quiet : Quiet exampleClient examplePresent := by
  refine ⟨?_, ?_, ?_, ?_, ?_⟩
  · intro s img _; rfl
  · intro s img x; rfl
  · intro s img x; rfl
  · intro s img auth x hx
    simp only [exampleClient, examplePresent, decide_eq_true_eq] at hx ⊢
    split
    · exact hx
    · exact List.mem_cons_of_mem _ hx
  · intro s img auth h
    simp only [exampleClient, examplePresent, decide_eq_true_eq] at h ⊢
    split at h
    · simp at h
    · rename_i hne
      simp [hne]

/-- Under `Quiet`, the first loop changes nothing of what is present. -/
theorem filterLoop_present {σ : Type} (c : Client σ) (present : σ → String → Bool)
    (hq : Quiet c present) (L : List (String × String)) :
    ∀ (s : σ) (acc : GoMap) (x : String),
      present (runPullCommand.filterLoop c L s acc).2.2.1 x = present s x := by
  induction L with
  | nil => intro s acc x; rfl
  | cons p rest ih =>
    obtain ⟨image, auth⟩ := p
    intro s acc x
    have h1 := hq.2.1 s image x
    rcases h : c.ImageExistsOnHost s image with ⟨⟨found, _ | e⟩, s1⟩
    · rw [filterLoop_cons_ok c image auth rest s s1 acc found h]
      rw [h] at h1
      simp only at h1 ⊢
      rw [ih, h1]
    · rw [filterLoop_cons_err c image auth rest s s1 acc found e h]
      rw [h] at h1
      exact h1

/-- Under `Quiet`, the answers without error of the first loop tell what is
present at its start. -/
theorem filterLoop_truth {σ : Type} (c : Client σ) (present : σ → String → Bool)
    (hq : Quiet c present) (L : List (String × String)) :
    ∀ (s : σ) (acc : GoMap) (img : String) (f : Bool),
      Event.existsOnHost img f none ∈ (runPullCommand.filterLoop c L s acc).2.2.2 →
      f = present s img := by
  induction L with
  | nil => intro s acc img f h; simp [runPullCommand.filterLoop] at h
  | cons p rest ih =>
    obtain ⟨image, auth⟩ := p
    intro s acc img f hm
    have h1 := hq.1 s image
    have h2 := hq.2.1 s image
    rcases h : c.ImageExistsOnHost s image with ⟨⟨found, _ | e⟩, s1⟩
    · rw [filterLoop_cons_ok c image auth rest s s1 acc found h] at hm
      rw [h] at h1 h2
      simp only [List.mem_cons] at hm
      rcases hm with hm | hm
      · injection hm with a b _
        subst a b
        exact h1 rfl
      · rw [ih s1 _ img f hm]
        exact h2 img
    · rw [filterLoop_cons_err c image auth rest s s1 acc found e h] at hm
      simp only [List.mem_singleton] at hm
      injection hm with _ _ d
      cases d

/-- Under `Quiet`, an image of the list that is absent at the start is in the
map the first loop returns without error. -/
theorem filterLoop_absent_kept {σ : Type} (c : Client σ) (present : σ → String → Bool)
    (hq : Quiet c present) (L : List (String × String)) :
    ∀ (s : σ) (acc : GoMap) (img : String), img ∈ L.map Prod.fst →
      (runPullCommand.filterLoop c L s acc).1 = none → present s img = false →
      img ∈ GoMap.keys (runPullCommand.filterLoop c L s acc).2.1 := by
  induction L with
  | nil => intro s acc img h; simp at h
  | cons p rest ih =>
    obtain ⟨image, auth⟩ := p
    intro s acc img hmem hok habs
    have h1 := hq.1 s image
    have h2 := hq.2.1 s image
    rcases h : c.ImageExistsOnHost s image with ⟨⟨found, _ | e⟩, s1⟩
    · rw [filterLoop_cons_ok c image auth rest s s1 acc found h] at hok ⊢
      rw [h] at h1 h2
      simp only at h1 h2
      simp only [List.map_cons, List.mem_cons] at hmem
      by_cases himg : img = image
      · subst himg
        apply filterLoop_keys_mono
        have hf : found = false := by rw [h1 trivial, habs]
        subst hf
        simp only [Bool.not_false, if_true]
        rw [GoMap.keys_set]
        split
        · assumption
        · simp
      · rcases hmem with hmem | hmem
        · exact absurd hmem himg
        · exact ih s1 _ img hmem hok (by rw [h2 img, habs])
    · rw [filterLoop_cons_err c image auth rest s s1 acc found e h] at hok
      simp at hok

/-- Under `Quiet`, the second loop changes nothing of what is present. -/
theorem validateLoop_present {σ : Type} (c : Client σ) (present : σ → String → Bool)
    (hq : Quiet c present) (L : List (String × String)) :
    ∀ (s : σ) (x : String), present (runPullCommand.validateLoop c L s).2.1 x = present s x := by
  induction L with
  | nil => intro s x; rfl
  | cons p rest ih =>
    obtain ⟨image, auth⟩ := p
    intro s x
    have h1 := hq.2.2.1 s image x
    rcases h : c.ImageExistsAtRemote s image with ⟨_ | e, s1⟩
    · rw [validateLoop_cons_ok c image auth rest s s1 h]
      rw [h] at h1
      simp only at h1 ⊢
      rw [ih, h1]
    · rw [validateLoop_cons_err c image auth rest s s1 e h]
      rw [h] at h1
      exact h1

/-- Under `Quiet`, what is present stays present through the third loop. -/
theorem pullLoop_mono {σ : Type} (c : Client σ) (present : σ → String → Bool)
    (hq : Quiet c present) (L : List (String × String)) :
    ∀ (s : σ) (x : String), present s x = true →
      present (runPullCommand.pullLoop c L s).1 x = true := by
  induction L with
  | nil => intro s x h; exact h
  | cons p rest ih =>
    obtain ⟨image, auth⟩ := p
    intro s x hx
    have h1 := hq.2.2.2.1 s image auth x hx
    rcases h : c.PullAndWait s image auth with ⟨_ | e, s1⟩
    · rw [h] at h1
      simp only [runPullCommand.pullLoop, h]
      exact ih s1 x h1
    · rw [h] at h1
      simp only [runPullCommand.pullLoop, h]
      exact ih s1 x h1

/-- Under `Quiet`, when every transfer of the third loop succeeds, every
image of the list is present at its end. -/
theorem pullLoop_success {σ : Type} (c : Client σ) (present : σ → String → Bool)
    (hq : Quiet c present) (L : List (String × String)) :
    ∀ (s : σ), (∀ img auth e,
        Event.pullAndWait img auth (some e) ∉ (runPullCommand.pullLoop c L s).2) →
      ∀ x ∈ L.map Prod.fst, present (runPullCommand.pullLoop c L s).1 x = true := by
  induction L with
  | nil => intro s _ x hx; simp at hx
  | cons p rest ih =>
    obtain ⟨image, auth⟩ := p
    intro s hall x hx
    have h1 := hq.2.2.2.2 s image auth
    rcases h : c.PullAndWait s image auth with ⟨_ | e, s1⟩
    · rw [h] at h1
      simp only [runPullCommand.pullLoop, h] at hall ⊢
      simp only [List.map_cons, List.mem_cons] at hx
      rcases hx with hx | hx
      · subst hx
        exact pullLoop_mono c present hq rest s1 x (h1 rfl)
      · apply ih s1 _ x hx
        intro img a e hm
        exact hall img a e (by simp [hm])
    · exfalso
      apply hall image auth e
      simp only [runPullCommand.pullLoop, h]
      simp

/-- Under `Quiet`, after lines 70 to 103 have returned no error with every
transfer successful, every image of the Desired State is present. -/
theorem reconcile_all_present {σ : Type} (env : Env σ) (client : Client σ) (origin : String)
    (images : GoMap) (s : σ) (present : σ → String → Bool) (hq : Quiet client present)
    (herr : (runPullCommand.reconcile env client origin images s).err = none)
    (hpulls : ∀ img auth e, Event.pullAndWait img auth (some e) ∉
      (runPullCommand.reconcile env client origin images s).trace) :
    ∀ img ∈ images.keys,
      present (runPullCommand.reconcile env client origin images s).state img = true := by
  intro img hmem
  obtain ⟨r1, tp, s1, tr1, hf, hcases⟩ := reconcile_cases env client origin images s
  have hin : img ∈ (images.range env.order1).map Prod.fst :=
    ((GoMap.range_perm env.order1 images).map Prod.fst).mem_iff.mpr hmem
  rcases hcases with ⟨e, _, herr2, _⟩ | ⟨hr1, r2, s2, tr2, hv, hcases2⟩
  · rw [herr] at herr2; cases herr2
  · subst hr1
    rcases hcases2 with ⟨e, _, herr2, _⟩ | ⟨hr2, _, hstate, htr⟩
    · rw [herr] at herr2; cases herr2
    · subst hr2
      rw [hstate]
      have hs1 : ∀ x, present s1 x = present s x := by
        intro x
        have := filterLoop_present client present hq (images.range env.order1) s GoMap.empty x
        rw [hf] at this
        exact this
      have hs2 : ∀ x, present s2 x = present s1 x := by
        intro x
        have := validateLoop_present client present hq (tp.range env.order2) s1 x
        rw [hv] at this
        exact this
      cases hp : present s img with
      | true =>
        apply pullLoop_mono client present hq
        rw [hs2, hs1, hp]
      | false =>
        have hk := filterLoop_absent_kept client present hq (images.range env.order1) s
          GoMap.empty img hin
        rw [hf] at hk
        have hk2 : img ∈ (tp.range env.order3).map Prod.fst :=
          ((GoMap.range_perm env.order3 tp).map Prod.fst).mem_iff.mpr (hk rfl hp)
        apply pullLoop_success client present hq (tp.range env.order3) s2 _ img hk2
        intro im a e hm
        apply hpulls im a e
        rw [htr]
        simp [hm]

/-- Under `Quiet`, when every image of the Desired State is present at the
start, no existence check of lines 70 to 103 answers "absent". -/
theorem reconcile_no_absent {σ : Type} (env : Env σ) (client : Client σ) (origin : String)
    (images : GoMap) (s : σ) (present : σ → String → Bool) (hq : Quiet client present)
    (hall : ∀ img ∈ images.keys, present s img = true) :
    ∀ img, Event.existsOnHost img false none ∉
      (runPullCommand.reconcile env client origin images s).trace := by
  intro img hm
  obtain ⟨r1, tp, s1, tr1, hf, hcases⟩ := reconcile_cases env client origin images s
  have hA := filterLoop_trace client (images.range env.order1) s GoMap.empty
  have hT := filterLoop_truth client present hq (images.range env.order1) s GoMap.empty
  rw [hf] at hA hT
  simp only at hA hT
  have h1 : Event.existsOnHost img false none ∉ tr1 := by
    intro h
    obtain ⟨img', f, err, he, hk⟩ := hA _ h
    injection he with a _ _
    subst a
    have hk2 : img ∈ images.keys :=
      ((GoMap.range_perm env.order1 images).map Prod.fst).mem_iff.mp hk
    have := hT img false h
    rw [hall img hk2] at this
    cases this
  have h0 : Event.existsOnHost img false none ≠ findingLine origin := by
    simp [findingLine]
  rcases hcases with ⟨e, _, _, _, htr⟩ | ⟨_, r2, s2, tr2, hv, hcases2⟩
  · rw [htr] at hm
    simp only [List.mem_cons] at hm
    rcases hm with hm | hm
    · exact h0 hm
    · exact h1 hm
  · have hV := validateLoop_trace client (tp.range env.order2) s1
    rw [hv] at hV
    simp only at hV
    have h2 : Event.existsOnHost img false none ∉ tr2 := by
      intro h
      obtain ⟨_, _, he, _⟩ := hV _ h
      cases he
    rcases hcases2 with ⟨e, _, _, _, htr⟩ | ⟨_, _, _, htr⟩
    · rw [htr] at hm
      simp only [List.mem_cons, List.mem_append] at hm
      rcases hm with hm | hm | hm
      · exact h0 hm
      · exact h1 hm
      · exact h2 hm
    · rw [htr] at hm
      simp only [List.mem_cons, List.mem_append, List.not_mem_nil, or_false] at hm
      rcases hm with hm | ((hm | hm) | hm) | hm
      · exact h0 hm
      · exact h1 hm
      · exact h2 hm
      · have := (pullLoop_trace client _ s2 _ hm).2.1
        simp [Event.hostArg] at this
      · simp [pulledLine] at hm

/-- C9, as the code has it: run twice in succession from the same inputs,
with no change from outside (`Quiet`), when the first run returns no error and
every transfer of the first run succeeds, the Work Set of the second run is
empty, and the second run makes no probe and no transfer. -/
theorem second_run_after_full_success_has_empty_work_set {σ : Type} (env : Env σ)
    (origin : String) (s : σ) (client : Client σ) (images : GoMap)
    (present : σ → String → Bool)
    (hnew : env.dockerNew = .ok client)
    (himg : (runPullCommand.images env origin).1 = .ok images)
    (hq : Quiet client present)
    (herr : (runPullCommand env origin s).err = none)
    (hpulls : ∀ ev ∈ (runPullCommand env origin s).trace, ev.pullFailed = false) :
    workSet images (runPullCommand env origin (runPullCommand env origin s).state).trace = [] ∧
    ∀ ev ∈ (runPullCommand env origin (runPullCommand env origin s).state).trace,
      ev.probeArg = none ∧ ev.pullArgs = none := by
  obtain ⟨e1, st1, t1⟩ := run_err_eq env origin s client images hnew himg
  have hall : ∀ img ∈ images.keys, present (runPullCommand env origin s).state img = true := by
    rw [st1]
    apply reconcile_all_present env client origin images s present hq
    · rw [← e1]; exact herr
    · intro img auth e hm
      have := hpulls (Event.pullAndWait img auth (some e))
        (by rw [t1]; exact List.mem_append_right _ hm)
      cases this
  obtain ⟨_, _, t2⟩ := run_err_eq env origin (runPullCommand env origin s).state client
    images hnew himg
  have hno : ∀ img, Event.existsOnHost img false none ∉
      (runPullCommand env origin (runPullCommand env origin s).state).trace := by
    intro img hm
    rw [t2] at hm
    simp only [List.mem_append] at hm
    rcases hm with hm | hm
    · have := images_trace env origin _ hm
      cases this
    · exact reconcile_no_absent env client origin images _ present hq hall img hm
  have hws : workSet images
      (runPullCommand env origin (runPullCommand env origin s).state).trace = [] := by
    simp only [workSet, List.filter_eq_nil_iff, decide_eq_true_eq]
    intro p _
    exact hno p.1
  refine ⟨hws, ?_⟩
  rcases run_shape env origin (runPullCommand env origin s).state with ⟨_, _, hall2⟩ |
    ⟨_, im, _, him, _, tr0, tr1, tr2, tr3, tp, htr, h0, h1, _, h2, h3, hperm, _⟩
  · intro ev hev
    rw [hall2 ev hev]
    exact ⟨rfl, rfl⟩
  · rw [himg] at him
    cases him
    have htp : tp = [] := by
      rw [htr, (shape_pulls_workSet images h0 h1 h2 h3).2] at hws
      rw [hws] at hperm
      exact List.Perm.eq_nil hperm
    subst htp
    intro ev hev
    rw [htr] at hev
    simp only [List.mem_append] at hev
    rcases hev with hev | (hev | hev) | hev
    · rcases h0 _ hev with h | h <;> subst h <;> exact ⟨rfl, rfl⟩
    · obtain ⟨_, _, _, h, _⟩ := h1 _ hev
      subst h
      exact ⟨rfl, rfl⟩
    · obtain ⟨_, _, _, hk⟩ := h2 _ hev
      simp [GoMap.keys] at hk
    · refine ⟨(h3 ev hev).2.2.1, ?_⟩
      cases ev with
      | pullAndWait img auth err =>
        have := (h3 _ hev).2.2.2 img rfl
        simp [GoMap.keys] at this
      | _ => rfl

/-- The example run from the manifest succeeds in full, and a second run
started where it ended has an empty Work Set. -/
theorem second_run_after_full_success_has_empty_work_set_witness :
    (runPullCommand exampleEnv "source" ["c"]).err = none ∧
    (runPullCommand exampleEnv "source" ["c"]).state = ["a", "c"] ∧
    (workSet [("a", "second"), ("c", "third")]
      (runPullCommand exampleEnv "source" (runPullCommand exampleEnv "source" ["c"]).state).trace
        = [] ∧
     ∀ ev ∈ (runPullCommand exampleEnv "source"
        (runPullCommand exampleEnv "source" ["c"]).state).trace,
      ev.probeArg = none ∧ ev.pullArgs = none) :=
  ⟨by decide, by decide,
    second_run_after_full_success_has_empty_work_set exampleEnv "source" ["c"] exampleClient
      [("a", "second"), ("c", "third")] examplePresent rfl rfl exampleClient_quiet
      (by decide) (by decide)⟩

/-- C9, as stated, fails: with the example client, which changes nothing from
outside, the transfer of "flaky" fails in the first run, the first run
returns no error, and the Work Set of the second run, started where the first
ended, still holds "flaky". -/
theorem idempotence_counterexample :
    Quiet exampleClient examplePresent ∧
    (runPullCommand.images exampleFlakyEnv "source").1.toOption
      = some [("flaky", "auth-flaky")] ∧
    (runPullCommand exampleFlakyEnv "source" []).err = none ∧
    workSet [("flaky", "auth-flaky")]
      (runPullCommand exampleFlakyEnv "source"
        (runPullCommand exampleFlakyEnv "source" []).state).trace
      = [("flaky", "auth-flaky")] :=
  ⟨exampleClient_quiet, by decide, by decide, by decide⟩

/-- The last value for a key among pairs (key, function of the key). -/
theorem lastValue_map {β : Type} (f : String → β) (l : List String) (k : String) :
    lastValue k (l.map (fun i => (i, f i))) = if k ∈ l then some (f k) else none := by
  induction l with
  | nil => rfl
  | cons a rest ih =>
    simp only [List.map_cons, lastValue, ih, List.mem_cons]
    by_cases hk : k ∈ rest
    · simp [hk]
    · by_cases ha : a = k
      · subst ha; simp [hk]
      · have : ¬ k = a := fun e => ha e.symm
        simp [hk, ha, this]

/-- In a list without repetition an element occurs once, outside it never. -/
theorem count_keys (l : List String) (h : l.Nodup) (k : String) (p : Prop) [Decidable p]
    (hp : k ∈ l ↔ p) : l.count k = if p then 1 else 0 := by
  by_cases hk : p
  · rw [if_pos hk]
    exact List.count_eq_one_of_mem h (hp.mpr hk)
  · rw [if_neg hk]
    exact List.count_eq_zero_of_not_mem (fun hm => hk (hp.mp hm))

/-- C10, as the code has it: a Desired State holds every image reference of
the explicit list or of the selected side of the manifest exactly once, and
the credential kept for a reference that occurs several times is the one of
its last occurrence, each later `m[k] = v` overwriting the earlier one (in the
explicit list all occurrences of a reference resolve to the same credential,
that of its host). -/
theorem duplicate_reference_keeps_the_last_credential {σ : Type} (env : Env σ)
    (images : List String) (path origin : String) (mf : Manifest)
    (hget : env.manifestGet path = .ok mf) :
    (∀ m, getImagesFromCommandLine env images = .ok m →
      (∀ k, m.keys.count k = if k ∈ images then 1 else 0) ∧
      (∀ k, Option.map Except.ok (m.get k) = lastValue k (commandLineEntries env images)) ∧
      (∀ k, Option.map Except.ok (m.get k)
        = if k ∈ images then some (env.getEncodedAuthForHost (env.registryHost k)) else none)) ∧
    (∀ m, (getImagesFromManifest env path origin).1 = .ok m →
      (∀ k, m.keys.count k = if k ∈ (mf.Sources.map
          (getImagesFromManifest.pick env.unicodeFold origin)).map Prod.fst then 1 else 0) ∧
      (∀ k, Option.map Except.ok (m.get k) = lastValue k
        (mf.Sources.map (getImagesFromManifest.pick env.unicodeFold origin)))) := by
  have hempty : GoMap.keys GoMap.empty = [] := rfl
  constructor
  · intro m hm
    have h1 := commandLine_insertAll env images
    rw [hm] at h1
    have h1' : insertAll (commandLineEntries env images) GoMap.empty = some m := h1.symm
    have hnd := insertAll_nodup _ _ _ h1' (by simp [hempty])
    have hget2 : ∀ k, Option.map Except.ok (m.get k)
        = lastValue k (commandLineEntries env images) := by
      intro k
      rw [insertAll_get _ _ _ h1' k]
      cases lastValue k (commandLineEntries env images) with
      | some v => rfl
      | none => simp [GoMap.empty, GoMap.get]
    refine ⟨?_, hget2, ?_⟩
    · intro k
      apply count_keys m.keys hnd k
      rw [insertAll_keys _ _ _ h1' k]
      simp [GoMap.empty, GoMap.keys, commandLineEntries, List.map_map]
    · intro k
      rw [hget2 k]
      exact lastValue_map (fun i => env.getEncodedAuthForHost (env.registryHost i)) images k
  · intro m hm
    have h1 := manifest_insertAll env path origin mf hget
    rw [hm] at h1
    have h1' := h1.symm
    have hnd := insertAll_nodup _ _ _ h1' (by simp [hempty])
    refine ⟨?_, ?_⟩
    · intro k
      apply count_keys m.keys hnd k
      rw [insertAll_keys _ _ _ h1' k]
      simp [GoMap.empty, GoMap.keys]
    · intro k
      rw [insertAll_get _ _ _ h1' k]
      cases lastValue k (mf.Sources.map (getImagesFromManifest.pick env.unicodeFold origin)) with
      | some v => rfl
      | none => simp [GoMap.empty, GoMap.get]

/-- The Desired State of the example manifest holds "a" once, with the
credential of its last entry. -/
theorem duplicate_reference_keeps_the_last_credential_witness :
    GoMap.keys [("a", "second"), ("c", "third")] = ["a", "c"] ∧
    Option.map Except.ok (GoMap.get [("a", "second"), ("c", "third")] "a")
      = lastValue "a" (exampleManifest.Sources.map
          (getImagesFromManifest.pick exampleEnv.unicodeFold "source")) :=
  ⟨rfl, ((duplicate_reference_keeps_the_last_credential exampleEnv ["x", "x"] "m.yaml" "source"
    exampleManifest rfl).2 [("a", "second"), ("c", "third")] rfl).2 "a"⟩

/-- C10, as stated, fails: the example manifest has the source image "a" twice,
with the credentials "first" and then "second"; the Desired State built from
it holds "a" once, with "second": the credential of the first occurrence is
the one discarded. -/
theorem first_credential_counterexample :
    exampleManifest.Sources.map (fun source => (source.Image, source.EncodedAuth.toOption))
      = [("a", some "first"), ("a", some "second"), ("c", some "third")] ∧
    (getImagesFromManifest exampleEnv "m.yaml" "source").1.toOption
      = some [("a", "second"), ("c", "third")] ∧
    GoMap.get [("a", "second"), ("c", "third")] "a" = some "second" ∧
    GoMap.get [("a", "second"), ("c", "third")] "a"
      ≠ firstValue "a" [("a", "first"), ("a", "second"), ("c", "third")] := by
  decide

end Sinker
